import Mathlib

/-!
Verification development for the entagle remote-desktop core.

This file gives a shallow embedding, in Lean 4, of the parts of the
program relevant to the stated properties:

* the shared protocol types and the bincode serialized size of a
  `VideoPacket` (`crates/shared-protocol/src/packets.rs`);
* the Host send worker's frame fragmentation
  (`apps/desktop-client/src-tauri/src/session.rs`, `ActiveSession::run_host`);
* the Viewer `FrameAssembler` (`push` / `evict_old`, same file);
* the congestion controller (`crates/net-transport/src/congestion.rs`);
* `PeerId` display/parse (`crates/shared-protocol/src/session.rs`);
* the signaling broker's per-message handling
  (`apps/signaling-server/src/main.rs`, `handle_websocket`);
* the `Session::connect` control flow
  (`apps/desktop-client/src-tauri/src/session.rs`).

Machine integers are modelled as `Nat`, with an explicit `% 2 ^ w`
where the source performs a narrowing cast.  Byte strings are
`List Nat`; Rust `String`s are `List Char`.  `HashMap`/`DashMap` are
modelled as association lists (the map's iteration order becomes the
list order).  `Instant` is a `Nat` time stamp in milliseconds supplied
by the caller.
-/

namespace Entagle

/-! ## Generic list helpers -/

/-- Rust's `slice::chunks n`: splits a list into consecutive chunks of
length `n`; the last chunk may be shorter.  `chunks 0 l = []` (the code
never calls it with `n = 0`). -/
def chunks (n : Nat) (l : List α) : List (List α) :=
  match l, n with
  | [], _ => []
  | _ :: _, 0 => []
  | x :: xs, n + 1 => (x :: xs).take (n + 1) :: chunks (n + 1) ((x :: xs).drop (n + 1))
termination_by l.length
decreasing_by
  simp only [List.length_drop, List.length_cons]
  omega

theorem chunks_nil (n : Nat) : chunks n ([] : List α) = [] := by
  rw [chunks]

theorem chunks_zero (l : List α) : chunks 0 l = [] := by
  cases l with
  | nil => rw [chunks_nil]
  | cons x xs => rw [chunks.eq_def]

theorem chunks_of_ne_nil {n : Nat} {l : List α} (hn : n ≠ 0) (hl : l ≠ []) :
    chunks n l = l.take n :: chunks n (l.drop n) := by
  cases l with
  | nil => exact absurd rfl hl
  | cons x xs =>
    cases n with
    | zero => exact absurd rfl hn
    | succ m => rw [chunks]

/-- The number of chunks is `⌈len / n⌉`. -/
theorem length_chunks {n : Nat} (hn : 0 < n) (l : List α) :
    (chunks n l).length = (l.length + n - 1) / n := by
  by_cases hl : l = []
  · subst hl
    have : (0 + n - 1) / n = 0 := Nat.div_eq_of_lt (by omega)
    simp only [chunks_nil, List.length_nil]
    omega
  · rw [chunks_of_ne_nil (Nat.pos_iff_ne_zero.mp hn) hl]
    have hlen : 0 < l.length := List.length_pos.mpr hl
    have ih := length_chunks hn (l.drop n)
    simp only [List.length_cons, ih, List.length_drop]
    rcases Nat.lt_or_ge l.length n with hle | hge
    · have h1 : (l.length - n + n - 1) / n = 0 := Nat.div_eq_of_lt (by omega)
      have h4 : (l.length + n - 1) / n = 1 :=
        Nat.div_eq_of_lt_le (by omega) (by omega)
      omega
    · have h2 : l.length - n + n - 1 = l.length - 1 := by omega
      have h3 : l.length + n - 1 = (l.length - 1) + n := by omega
      rw [h2, h3, Nat.add_div_right _ hn]
termination_by l.length
decreasing_by
  have hlen : 0 < l.length := List.length_pos.mpr hl
  simpa using Nat.sub_lt hlen hn

/-- Concatenating the chunks recovers the original list. -/
theorem flatten_chunks {n : Nat} (hn : 0 < n) (l : List α) :
    (chunks n l).flatten = l := by
  by_cases hl : l = []
  · subst hl; simp [chunks_nil]
  · rw [chunks_of_ne_nil (Nat.pos_iff_ne_zero.mp hn) hl]
    have ih := flatten_chunks hn (l.drop n)
    simp [ih]
termination_by l.length
decreasing_by
  have hlen : 0 < l.length := List.length_pos.mpr hl
  simpa using Nat.sub_lt hlen hn

/-- The `i`-th chunk is `(l.drop (i*n)).take n`. -/
theorem getElem?_chunks {n : Nat} (hn : 0 < n) (l : List α) (i : Nat)
    (hi : i < (chunks n l).length) :
    (chunks n l)[i]? = some ((l.drop (i * n)).take n) := by
  by_cases hl : l = []
  · subst hl; simp [chunks_nil] at hi
  · rw [chunks_of_ne_nil (Nat.pos_iff_ne_zero.mp hn) hl] at hi ⊢
    cases i with
    | zero => simp
    | succ j =>
      simp only [List.getElem?_cons_succ]
      have hj : j < (chunks n (l.drop n)).length := by
        simpa using Nat.lt_of_succ_lt_succ hi
      rw [getElem?_chunks hn (l.drop n) j hj]
      congr 2
      rw [List.drop_drop]
      congr 1
      ring
termination_by l.length
decreasing_by
  have hlen : 0 < l.length := List.length_pos.mpr hl
  simpa using Nat.sub_lt hlen hn

/-- Every chunk has length at most `n`. -/
theorem length_le_of_mem_chunks {n : Nat} {l : List α} {c : List α}
    (hc : c ∈ chunks n l) : c.length ≤ n := by
  by_cases hn : n = 0
  · subst hn; rw [chunks_zero] at hc; simp at hc
  · by_cases hl : l = []
    · subst hl; rw [chunks_nil] at hc; simp at hc
    · rw [chunks_of_ne_nil hn hl] at hc
      rcases List.mem_cons.mp hc with h1 | h1
      · subst h1; simp
      · exact length_le_of_mem_chunks h1
termination_by l.length
decreasing_by
  have hlen : 0 < l.length := List.length_pos.mpr hl
  have hn' : 0 < n := Nat.pos_of_ne_zero hn
  simpa using Nat.sub_lt hlen hn'

/-! ## Protocol types (crates/shared-protocol/src/packets.rs) -/

/-- `FrameType` in packets.rs. -/
inductive FrameType
  | Key
  | Delta
  | Bidirectional
deriving DecidableEq, Repr

/-- `VideoCodec` in packets.rs. -/
inductive VideoCodec
  | H264
  | H265
  | VP9
  | AV1
deriving DecidableEq, Repr

/-- `DirtyRect` in packets.rs (four `u32` fields). -/
structure DirtyRect where
  x : Nat
  y : Nat
  width : Nat
  height : Nat
deriving DecidableEq, Repr

/-- `VideoPacketHeader` in packets.rs.  `frame_id`, `timestamp_us` are
`u64`; `fragment_index`, `total_fragments` are `u16`; `width`, `height`
are `u32`; all modelled as `Nat` holding the machine value. -/
structure VideoPacketHeader where
  frame_id : Nat
  fragment_index : Nat
  total_fragments : Nat
  timestamp_us : Nat
  frame_type : FrameType
  codec : VideoCodec
  width : Nat
  height : Nat
  dirty_rect : Option DirtyRect
deriving DecidableEq, Repr

/-- `VideoPacket` in packets.rs: header plus payload bytes. -/
structure VideoPacket where
  header : VideoPacketHeader
  payload : List Nat
deriving DecidableEq, Repr

/-- `MAX_DATAGRAM_SIZE` in shared-protocol/src/lib.rs. -/
def MAX_DATAGRAM_SIZE : Nat := 1200

/-- Serialized size of a `VideoPacketHeader` under bincode 1.x's legacy
format used by `bincode::serialize` / `bincode::serialized_size`:
fixed-width little-endian integers (`u64` = 8, `u32` = 4, `u16` = 2
bytes), `u32` variant tags for enums, a 1-byte tag for `Option`
followed by the value when present. -/
def VideoPacketHeader.serializedSize (h : VideoPacketHeader) : Nat :=
  8 + 2 + 2 + 8 + 4 + 4 + 4 + 4 +
    (match h.dirty_rect with
     | none => 1
     | some _ => 1 + 16)

/-- Serialized size of a `VideoPacket` (`VideoPacket::to_bytes`):
the header fields followed by the payload serialized via
`serialize_bytes`, which bincode writes as a `u64` length prefix plus
the raw bytes. -/
def VideoPacket.serializedSize (p : VideoPacket) : Nat :=
  p.header.serializedSize + 8 + p.payload.length

/-! ## Host send worker fragmentation
(apps/desktop-client/src-tauri/src/session.rs, `ActiveSession::run_host`,
outgoing-video arm of the `tokio::select!`). -/

/-- The `for (index, chunk) in frame.data.chunks(max_payload).enumerate()`
loop body: builds one `VideoPacket` per chunk, with `fragment_index`
set to `index as u16` and `total_fragments` to the precomputed value. -/
def fragmentLoop (header : VideoPacketHeader) (total : Nat) (i : Nat) :
    List (List Nat) → List VideoPacket
  | [] => []
  | c :: cs =>
      { header := { header with fragment_index := i % 2 ^ 16, total_fragments := total },
        payload := c } :: fragmentLoop header total (i + 1) cs

/-- The outgoing-video arm of `run_host` for one dequeued encoded frame:
computes `header_size` by serializing the frame's header with an empty
payload, derives `max_payload = MAX_DATAGRAM_SIZE.saturating_sub(header_size)`,
skips the frame if `max_payload == 0`, and otherwise emits one packet per
`max_payload`-sized chunk with
`total_fragments = ((len + max_payload - 1) / max_payload) as u16`. -/
def sendFrame (header : VideoPacketHeader) (data : List Nat) : List VideoPacket :=
  let header_size := VideoPacket.serializedSize { header := header, payload := [] }
  let max_payload := MAX_DATAGRAM_SIZE - header_size
  if max_payload = 0 then []
  else
    let total_fragments := ((data.length + max_payload - 1) / max_payload) % 2 ^ 16
    fragmentLoop header total_fragments 0 (chunks max_payload data)

/-- `max_payload` as computed by `run_host` for a given frame header. -/
def maxPayload (header : VideoPacketHeader) : Nat :=
  MAX_DATAGRAM_SIZE - VideoPacket.serializedSize { header := header, payload := [] }

theorem fragmentLoop_length (h : VideoPacketHeader) (t : Nat) :
    ∀ (cs : List (List Nat)) (i : Nat), (fragmentLoop h t i cs).length = cs.length := by
  intro cs
  induction cs with
  | nil => intro i; rfl
  | cons c cs ih => intro i; simp [fragmentLoop, ih]

theorem fragmentLoop_getElem? (h : VideoPacketHeader) (t : Nat) :
    ∀ (cs : List (List Nat)) (i j : Nat),
      (fragmentLoop h t i cs)[j]? = cs[j]?.map (fun c =>
        { header := { h with fragment_index := (i + j) % 2 ^ 16, total_fragments := t },
          payload := c }) := by
  intro cs
  induction cs with
  | nil => intro i j; simp [fragmentLoop]
  | cons c cs ih =>
    intro i j
    cases j with
    | zero => simp [fragmentLoop]
    | succ k =>
      simp only [fragmentLoop, List.getElem?_cons_succ, ih (i + 1) k]
      have : i + 1 + k = i + (k + 1) := by omega
      rw [this]

theorem fragmentLoop_map_payload (h : VideoPacketHeader) (t : Nat) :
    ∀ (cs : List (List Nat)) (i : Nat),
      (fragmentLoop h t i cs).map VideoPacket.payload = cs := by
  intro cs
  induction cs with
  | nil => intro i; rfl
  | cons c cs ih => intro i; simp [fragmentLoop, ih]

theorem mem_fragmentLoop (h : VideoPacketHeader) (t : Nat) :
    ∀ {cs : List (List Nat)} {i : Nat} {p : VideoPacket}, p ∈ fragmentLoop h t i cs →
      ∃ c ∈ cs, p.header.dirty_rect = h.dirty_rect ∧ p.payload = c := by
  intro cs
  induction cs with
  | nil => intro i p hp; simp [fragmentLoop] at hp
  | cons c cs ih =>
    intro i p hp
    rcases List.mem_cons.mp hp with h1 | h1
    · exact ⟨c, List.mem_cons_self .., by subst h1; exact ⟨rfl, rfl⟩⟩
    · obtain ⟨c', hc', hdr, pay⟩ := ih h1
      exact ⟨c', List.mem_cons_of_mem _ hc', hdr, pay⟩

theorem headerSize_le (h : VideoPacketHeader) :
    VideoPacket.serializedSize { header := h, payload := [] } ≤ 61 := by
  simp only [VideoPacket.serializedSize, VideoPacketHeader.serializedSize]
  cases h.dirty_rect <;> simp

theorem maxPayload_pos (h : VideoPacketHeader) : 0 < maxPayload h := by
  have := headerSize_le h
  simp only [maxPayload, MAX_DATAGRAM_SIZE]
  omega

theorem sendFrame_eq (h : VideoPacketHeader) (data : List Nat) :
    sendFrame h data =
      fragmentLoop h (((data.length + maxPayload h - 1) / maxPayload h) % 2 ^ 16) 0
        (chunks (maxPayload h) data) := by
  have hmp : maxPayload h ≠ 0 := Nat.pos_iff_ne_zero.mp (maxPayload_pos h)
  simp only [sendFrame, maxPayload] at *
  rw [if_neg hmp]

/-- C1 (amended): for a nonempty bitstream the send worker emits exactly
`⌈L / max_payload⌉` packets, where `max_payload = 1200 − H` and `H` is
the serialized size of the frame's header with empty payload; the `i`-th
packet carries the `i`-th `max_payload`-sized chunk with
`fragment_index = i mod 2^16` and `total_fragments = ⌈L / max_payload⌉ mod 2^16`
(the `as u16` casts) and all other header fields unchanged; every packet
serializes to at most 1200 bytes; and the payload concatenation in
emission order is the original bitstream. -/
theorem C1_host_fragmentation (h : VideoPacketHeader) (data : List Nat)
    (_hd : data ≠ []) :
    0 < maxPayload h ∧
    (sendFrame h data).length = (data.length + maxPayload h - 1) / maxPayload h ∧
    (∀ i, i < (sendFrame h data).length →
      (sendFrame h data)[i]? = some
        { header := { h with
            fragment_index := i % 2 ^ 16,
            total_fragments :=
              ((data.length + maxPayload h - 1) / maxPayload h) % 2 ^ 16 },
          payload := (data.drop (i * maxPayload h)).take (maxPayload h) }) ∧
    (∀ p ∈ sendFrame h data, p.serializedSize ≤ MAX_DATAGRAM_SIZE) ∧
    ((sendFrame h data).map VideoPacket.payload).flatten = data := by
  have hmp : 0 < maxPayload h := maxPayload_pos h
  have hH : VideoPacket.serializedSize { header := h, payload := [] } ≤ 61 :=
    headerSize_le h
  refine ⟨hmp, ?_, ?_, ?_, ?_⟩
  · rw [sendFrame_eq, fragmentLoop_length, length_chunks hmp]
  · intro i hi
    rw [sendFrame_eq] at hi ⊢
    rw [fragmentLoop_getElem?]
    rw [fragmentLoop_length] at hi
    rw [getElem?_chunks hmp data i hi]
    simp
  · intro p hp
    rw [sendFrame_eq] at hp
    obtain ⟨c, hc, hdr, pay⟩ := mem_fragmentLoop h _ hp
    have hclen : c.length ≤ maxPayload h := length_le_of_mem_chunks hc
    have hsz : p.serializedSize =
        VideoPacket.serializedSize { header := h, payload := [] } + c.length := by
      simp only [VideoPacket.serializedSize, VideoPacketHeader.serializedSize, pay,
        hdr, List.length_nil]
    simp only [maxPayload, MAX_DATAGRAM_SIZE] at hclen
    rw [hsz]
    simp only [MAX_DATAGRAM_SIZE]
    omega
  · rw [sendFrame_eq, fragmentLoop_map_payload, flatten_chunks hmp]

/-- A sample frame header (keyframe, no dirty rect), used for concrete
instances below. -/
def hdrA : VideoPacketHeader :=
  { frame_id := 1, fragment_index := 0, total_fragments := 1,
    timestamp_us := 0, frame_type := .Key, codec := .H264,
    width := 640, height := 480, dirty_rect := none }

theorem chunks_replicate {n : Nat} (hn : 0 < n) (k : Nat) (a : α) :
    chunks n (List.replicate (k * n) a) = List.replicate k (List.replicate n a) := by
  induction k with
  | zero => simp [chunks_nil]
  | succ m ih =>
    have hne : List.replicate ((m + 1) * n) a ≠ [] := by
      simp only [ne_eq, List.replicate_eq_nil_iff]
      positivity
    rw [chunks_of_ne_nil (Nat.pos_iff_ne_zero.mp hn) hne]
    rw [List.take_replicate, List.drop_replicate]
    have h1 : n ⊓ (m + 1) * n = n := by
      have : n ≤ (m + 1) * n := Nat.le_mul_of_pos_left n (by omega)
      omega
    have h2 : (m + 1) * n - n = m * n := by ring_nf; omega
    rw [h1, h2, ih]
    rfl

/-- The first packet `run_host` emits for a 75,695,235-byte bitstream
with header `hdrA`: its `total_fragments` field is `65537 % 2^16 = 1`. -/
def c1BadPacket : VideoPacket :=
  { header := { hdrA with
      fragment_index := 0 % 2 ^ 16,
      total_fragments := 65537 % 2 ^ 16 },
    payload := List.replicate 1155 0 }

/-- Counterexample to C1 as stated: for a 75,695,235-byte bitstream
(`max_payload = 1155`, so ⌈L / max_payload⌉ = 65537), the `as u16` cast
wraps `total_fragments` to `65537 mod 2^16 = 1`, so the emitted packets
do not carry `total_fragments = ⌈L / max_payload⌉`. -/
theorem C1_counterexample :
    ¬ (∀ p ∈ sendFrame hdrA (List.replicate (65537 * 1155) 0),
        p.header.total_fragments =
          ((List.replicate (65537 * 1155) (0 : Nat)).length + maxPayload hdrA - 1) /
            maxPayload hdrA) := by
  intro hall
  have hmp : maxPayload hdrA = 1155 := by decide
  have hlen : (List.replicate (65537 * 1155) (0 : Nat)).length = 65537 * 1155 :=
    List.length_replicate _ _
  have hT : ((List.replicate (65537 * 1155) (0 : Nat)).length + 1155 - 1) / 1155
      = 65537 := by
    rw [hlen]
  have hchunks : chunks 1155 (List.replicate (65537 * 1155) (0 : Nat)) =
      List.replicate 65537 (List.replicate 1155 0) :=
    chunks_replicate (by omega) 65537 0
  have h0 : (sendFrame hdrA (List.replicate (65537 * 1155) 0))[0]? =
      some c1BadPacket := by
    rw [sendFrame_eq, hmp, hT, fragmentLoop_getElem?, hchunks,
      List.getElem?_replicate, if_pos (by omega)]
    rfl
  have hmem : c1BadPacket ∈ sendFrame hdrA (List.replicate (65537 * 1155) 0) :=
    List.getElem?_mem h0
  have := hall _ hmem
  rw [hmp, hlen] at this
  simp only [c1BadPacket] at this
  omega

/-- Witness for C1 at a concrete header and 3-byte bitstream. -/
theorem C1_host_fragmentation_witness :
    (([1, 2, 3] : List Nat) ≠ []) ∧
    (0 < maxPayload hdrA ∧
      (sendFrame hdrA [1, 2, 3]).length =
        (([1, 2, 3] : List Nat).length + maxPayload hdrA - 1) / maxPayload hdrA ∧
      (∀ i, i < (sendFrame hdrA [1, 2, 3]).length →
        (sendFrame hdrA [1, 2, 3])[i]? = some
          { header := { hdrA with
              fragment_index := i % 2 ^ 16,
              total_fragments :=
                ((([1, 2, 3] : List Nat).length + maxPayload hdrA - 1) /
                    maxPayload hdrA) % 2 ^ 16 },
            payload := (([1, 2, 3] : List Nat).drop (i * maxPayload hdrA)).take
              (maxPayload hdrA) }) ∧
      (∀ p ∈ sendFrame hdrA [1, 2, 3], p.serializedSize ≤ MAX_DATAGRAM_SIZE) ∧
      ((sendFrame hdrA [1, 2, 3]).map VideoPacket.payload).flatten = [1, 2, 3]) :=
  ⟨by decide, C1_host_fragmentation hdrA [1, 2, 3] (by decide)⟩

/-! ## Frame assembler
(apps/desktop-client/src-tauri/src/session.rs, `FrameAssembler`).
The `HashMap<u64, FrameAssembly>` is modelled as an association list;
`Instant` as a `Nat` millisecond time stamp passed to each call. -/

/-- `FrameAssembly` in session.rs. -/
structure FrameAssembly where
  header : VideoPacketHeader
  fragments : List (Option (List Nat))
  received : Nat
  last_update : Nat
deriving DecidableEq, Repr

/-- `HashMap::insert` on an association list: replaces the entry in
place, or appends a new one. -/
def alInsert (fid : Nat) (e : FrameAssembly) :
    List (Nat × FrameAssembly) → List (Nat × FrameAssembly)
  | [] => [(fid, e)]
  | (k, v) :: rest =>
      if k = fid then (fid, e) :: rest else (k, v) :: alInsert fid e rest

/-- `HashMap::remove` on an association list: removes the first entry
with the given key. -/
def alRemove (fid : Nat) :
    List (Nat × FrameAssembly) → List (Nat × FrameAssembly)
  | [] => []
  | (k, v) :: rest =>
      if k = fid then rest else (k, v) :: alRemove fid rest

/-- `FrameAssembler` in session.rs. -/
structure FrameAssembler where
  frames : List (Nat × FrameAssembly)
  max_frames : Nat
  max_age : Nat
deriving DecidableEq, Repr

/-- `FrameAssembler::new`. -/
def FrameAssembler.new (max_frames max_age : Nat) : FrameAssembler :=
  { frames := [], max_frames := max_frames, max_age := max_age }

/-- `FrameAssembler::evict_old`: drop assemblies older than `max_age`;
if still above `max_frames`, sort the surviving entries by
`last_update` and remove the oldest until `max_frames` remain. -/
def FrameAssembler.evictOld (a : FrameAssembler) (now : Nat) : FrameAssembler :=
  let cutoff := now - a.max_age
  let kept := a.frames.filter (fun kv => cutoff ≤ kv.2.last_update)
  if kept.length > a.max_frames then
    let entries := (kept.map (fun kv => (kv.1, kv.2.last_update))).mergeSort
      (fun x y => x.2 ≤ y.2)
    let to_remove := entries.length - a.max_frames
    ((entries.take to_remove).map Prod.fst).foldl
      (fun m i => { m with frames := alRemove i m.frames })
      { a with frames := kept }
  else { a with frames := kept }

/-- The `self.frames.entry(frame_id).or_insert_with(...)` step of
`FrameAssembler::push`: the existing assembly, or a fresh one. -/
def FrameAssembler.getEntry (a1 : FrameAssembler) (now : Nat) (p : VideoPacket) :
    FrameAssembly :=
  match a1.frames.lookup p.header.frame_id with
  | some e => e
  | none =>
    { header := p.header,
      fragments := List.replicate p.header.total_fragments none,
      received := 0, last_update := now }

/-- The `if entry.fragments.len() != total { *entry = ... }` step of
`FrameAssembler::push`: reset the assembly when `total_fragments`
disagrees. -/
def resetIfMismatch (now : Nat) (p : VideoPacket) (e : FrameAssembly) :
    FrameAssembly :=
  if e.fragments.length ≠ p.header.total_fragments then
    { header := p.header,
      fragments := List.replicate p.header.total_fragments none,
      received := 0, last_update := now }
  else e

/-- The fragment-store step of `FrameAssembler::push`: if the index is
in range and the slot is empty, store the payload, bump `received`, and
refresh `last_update`. -/
def storeFragment (now : Nat) (p : VideoPacket) (e : FrameAssembly) :
    FrameAssembly :=
  if p.header.fragment_index < p.header.total_fragments ∧
      e.fragments[p.header.fragment_index]? = some none then
    { e with
      fragments := e.fragments.set p.header.fragment_index (some p.payload),
      received := e.received + 1,
      last_update := now }
  else e

/-- `FrameAssembler::push`. -/
def FrameAssembler.push (a : FrameAssembler) (now : Nat) (p : VideoPacket) :
    Option VideoPacket × FrameAssembler :=
  if p.header.total_fragments ≤ 1 then (some p, a)
  else
    let a1 := a.evictOld now
    let entry2 := storeFragment now p (resetIfMismatch now p (a1.getEntry now p))
    if entry2.received = p.header.total_fragments then
      (some { header := entry2.header,
              payload := (entry2.fragments.map (fun o => o.getD [])).flatten },
       { a1 with frames := alRemove p.header.frame_id a1.frames })
    else
      (none, { a1 with frames := alInsert p.header.frame_id entry2 a1.frames })

/-- Pushing a list of packets at a fixed time, collecting the outputs. -/
def FrameAssembler.pushSeq (a : FrameAssembler) (now : Nat) :
    List VideoPacket → List (Option VideoPacket) × FrameAssembler
  | [] => ([], a)
  | p :: ps =>
    let r := a.push now p
    let rs := r.2.pushSeq now ps
    (r.1 :: rs.1, rs.2)

/-- C9: a packet with `total_fragments ≤ 1` is returned unchanged before
any eviction runs, leaving the assembler's state exactly as it was; so
repeated pushes of the same single-fragment frame are delivered every
time. -/
theorem C9_single_fragment_passthrough (a : FrameAssembler) (now : Nat)
    (p : VideoPacket) (h : p.header.total_fragments ≤ 1) :
    a.push now p = (some p, a) ∧
    ∀ k, a.pushSeq now (List.replicate k p) = (List.replicate k (some p), a) := by
  have h1 : a.push now p = (some p, a) := by
    rw [FrameAssembler.push, if_pos h]
  refine ⟨h1, ?_⟩
  intro k
  induction k with
  | zero => rfl
  | succ m ih =>
    simp only [List.replicate_succ, FrameAssembler.pushSeq, h1, ih]

/-- Witness for C9: a single-fragment packet on an empty assembler. -/
theorem C9_single_fragment_passthrough_witness :
    (VideoPacket.mk hdrA [7, 8]).header.total_fragments ≤ 1 ∧
    ((FrameAssembler.new 128 2000).push 5 (VideoPacket.mk hdrA [7, 8]) =
        (some (VideoPacket.mk hdrA [7, 8]), FrameAssembler.new 128 2000) ∧
      ∀ k, (FrameAssembler.new 128 2000).pushSeq 5
          (List.replicate k (VideoPacket.mk hdrA [7, 8])) =
        (List.replicate k (some (VideoPacket.mk hdrA [7, 8])),
          FrameAssembler.new 128 2000)) :=
  ⟨by decide,
    C9_single_fragment_passthrough (FrameAssembler.new 128 2000) 5
      (VideoPacket.mk hdrA [7, 8]) (by decide)⟩

/-! ### Reassembly of a fragmented frame (C2) -/

/-- The `i`-th fragment packet of a frame whose bitstream was split into
the payload list `payloads`, as produced by the sender: all header
fields shared except `fragment_index`. -/
def fragPacket (hdr : VideoPacketHeader) (n : Nat) (payloads : List (List Nat))
    (i : Nat) : VideoPacket :=
  { header := { hdr with fragment_index := i, total_fragments := n },
    payload := payloads.getD i [] }

/-- The assembly for the frame holds exactly the fragments listed in
`done`, freshly updated at `now`. -/
def isPartial (n now : Nat) (payloads : List (List Nat)) (done : List Nat)
    (e : FrameAssembly) : Prop :=
  e.fragments.length = n ∧ e.received = done.length ∧ e.last_update = now ∧
  ∀ i, i < n →
    e.fragments[i]? = some (if i ∈ done then some (payloads.getD i []) else none)
theorem evictOld_empty (mf ma now : Nat) :
    FrameAssembler.evictOld ⟨[], mf, ma⟩ now = ⟨[], mf, ma⟩ := by
  simp [FrameAssembler.evictOld]

theorem evictOld_fresh (fid : Nat) (e : FrameAssembly) (mf ma now : Nat)
    (hm : 1 ≤ mf) (he : now - ma ≤ e.last_update) :
    FrameAssembler.evictOld ⟨[(fid, e)], mf, ma⟩ now = ⟨[(fid, e)], mf, ma⟩ := by
  have hc : decide (now - ma ≤ e.last_update) = true := decide_eq_true he
  have h1 : List.filter (fun kv => decide (now - ma ≤ kv.2.last_update))
      ([(fid, e)] : List (Nat × FrameAssembly)) = [(fid, e)] := by
    simp only [List.filter_cons, List.filter_nil, hc]
    rfl
  simp only [FrameAssembler.evictOld, h1]
  rw [if_neg (by simp; omega)]

theorem getEntry_singleton (fid : Nat) (e : FrameAssembly) (mf ma now : Nat)
    (p : VideoPacket) (hfid : p.header.frame_id = fid) :
    FrameAssembler.getEntry ⟨[(fid, e)], mf, ma⟩ now p = e := by
  simp [FrameAssembler.getEntry, hfid, List.lookup]

theorem getEntry_empty (mf ma now : Nat) (p : VideoPacket) :
    FrameAssembler.getEntry ⟨[], mf, ma⟩ now p =
      { header := p.header,
        fragments := List.replicate p.header.total_fragments none,
        received := 0, last_update := now } := by
  simp [FrameAssembler.getEntry, List.lookup]

theorem resetIfMismatch_same (now : Nat) (p : VideoPacket) (e : FrameAssembly)
    (h : e.fragments.length = p.header.total_fragments) :
    resetIfMismatch now p e = e := by
  simp [resetIfMismatch, h]

theorem storeFragment_empty_slot (now : Nat) (p : VideoPacket)
    (e : FrameAssembly) (hlt : p.header.fragment_index < p.header.total_fragments)
    (hslot : e.fragments[p.header.fragment_index]? = some none) :
    storeFragment now p e =
      { e with
        fragments := e.fragments.set p.header.fragment_index (some p.payload),
        received := e.received + 1, last_update := now } := by
  rw [storeFragment, if_pos ⟨hlt, hslot⟩]

theorem storeFragment_full_slot (now : Nat) (p : VideoPacket)
    (e : FrameAssembly) (c : List Nat)
    (hslot : e.fragments[p.header.fragment_index]? = some (some c)) :
    storeFragment now p e = e := by
  rw [storeFragment, if_neg]
  intro hcontra
  rw [hslot] at hcontra
  simp at hcontra

theorem push_init (hdr : VideoPacketHeader) (n now : Nat)
    (payloads : List (List Nat)) (j : Nat) (hn : 2 ≤ n) (hj : j < n) :
    FrameAssembler.push (FrameAssembler.new 128 2000) now
        (fragPacket hdr n payloads j) =
      (none,
        ⟨[(hdr.frame_id,
            { header := { hdr with fragment_index := j, total_fragments := n },
              fragments := (List.replicate n none).set j
                (some (payloads.getD j [])),
              received := 1, last_update := now })], 128, 2000⟩) := by
  have h1 : ¬ ((fragPacket hdr n payloads j).header.total_fragments ≤ 1) := by
    simp only [fragPacket]
    omega
  rw [FrameAssembler.push, if_neg h1]
  simp only [FrameAssembler.new]
  rw [evictOld_empty]
  rw [getEntry_empty]
  have hre : resetIfMismatch now (fragPacket hdr n payloads j)
      { header := (fragPacket hdr n payloads j).header,
        fragments := List.replicate
          (fragPacket hdr n payloads j).header.total_fragments none,
        received := 0, last_update := now } =
      { header := (fragPacket hdr n payloads j).header,
        fragments := List.replicate
          (fragPacket hdr n payloads j).header.total_fragments none,
        received := 0, last_update := now } :=
    resetIfMismatch_same _ _ _ (by simp)
  rw [hre]
  rw [storeFragment_empty_slot _ _ _ (by simp [fragPacket]; omega)
    (by simp [fragPacket, List.getElem?_replicate, hj])]
  rw [if_neg (by simp [fragPacket]; omega)]
  simp [fragPacket, alInsert]

theorem push_step_incomplete (hdr : VideoPacketHeader) (n now : Nat)
    (payloads : List (List Nat)) (done : List Nat) (e : FrameAssembly) (j : Nat)
    (hn : 2 ≤ n) (hj : j < n) (hjd : j ∉ done)
    (hpart : isPartial n now payloads done e) (hfull : done.length + 1 ≠ n) :
    FrameAssembler.push ⟨[(hdr.frame_id, e)], 128, 2000⟩ now
        (fragPacket hdr n payloads j) =
      (none,
        ⟨[(hdr.frame_id,
            { e with
              fragments := e.fragments.set j (some (payloads.getD j [])),
              received := done.length + 1, last_update := now })], 128, 2000⟩) := by
  obtain ⟨hlen, hrecv, hlast, hfrag⟩ := hpart
  have h1 : ¬ ((fragPacket hdr n payloads j).header.total_fragments ≤ 1) := by
    simp only [fragPacket]
    omega
  have hfj : e.fragments[j]? = some none := by
    rw [hfrag j hj, if_neg hjd]
  have hev : FrameAssembler.evictOld ⟨[(hdr.frame_id, e)], 128, 2000⟩ now
      = ⟨[(hdr.frame_id, e)], 128, 2000⟩ :=
    evictOld_fresh hdr.frame_id e 128 2000 now (by omega) (by omega)
  have hget : FrameAssembler.getEntry ⟨[(hdr.frame_id, e)], 128, 2000⟩ now
      (fragPacket hdr n payloads j) = e :=
    getEntry_singleton _ _ _ _ _ _ (by simp [fragPacket])
  have hres : resetIfMismatch now (fragPacket hdr n payloads j) e = e :=
    resetIfMismatch_same _ _ _ (by simpa [fragPacket] using hlen)
  have hsto : storeFragment now (fragPacket hdr n payloads j) e =
      { e with
        fragments := e.fragments.set j (some (payloads.getD j [])),
        received := e.received + 1, last_update := now } := by
    rw [storeFragment_empty_slot _ _ _ (by simpa [fragPacket] using hj)
      (by simpa [fragPacket] using hfj)]
    simp [fragPacket]
  rw [FrameAssembler.push, if_neg h1]
  simp only [hev, hget, hres, hsto]
  rw [if_neg (by simp [fragPacket, hrecv]; omega)]
  simp [fragPacket, alInsert, hrecv]

theorem push_step_complete (hdr : VideoPacketHeader) (n now : Nat)
    (payloads : List (List Nat)) (done : List Nat) (e : FrameAssembly) (j : Nat)
    (hn : 2 ≤ n) (hj : j < n) (hjd : j ∉ done)
    (hpart : isPartial n now payloads done e) (hfull : done.length + 1 = n) :
    FrameAssembler.push ⟨[(hdr.frame_id, e)], 128, 2000⟩ now
        (fragPacket hdr n payloads j) =
      (some
        { header := e.header,
          payload := ((e.fragments.set j (some (payloads.getD j []))).map
            (fun o => o.getD [])).flatten },
       ⟨[], 128, 2000⟩) := by
  obtain ⟨hlen, hrecv, hlast, hfrag⟩ := hpart
  have h1 : ¬ ((fragPacket hdr n payloads j).header.total_fragments ≤ 1) := by
    simp only [fragPacket]
    omega
  have hfj : e.fragments[j]? = some none := by
    rw [hfrag j hj, if_neg hjd]
  have hev : FrameAssembler.evictOld ⟨[(hdr.frame_id, e)], 128, 2000⟩ now
      = ⟨[(hdr.frame_id, e)], 128, 2000⟩ :=
    evictOld_fresh hdr.frame_id e 128 2000 now (by omega) (by omega)
  have hget : FrameAssembler.getEntry ⟨[(hdr.frame_id, e)], 128, 2000⟩ now
      (fragPacket hdr n payloads j) = e :=
    getEntry_singleton _ _ _ _ _ _ (by simp [fragPacket])
  have hres : resetIfMismatch now (fragPacket hdr n payloads j) e = e :=
    resetIfMismatch_same _ _ _ (by simpa [fragPacket] using hlen)
  have hsto : storeFragment now (fragPacket hdr n payloads j) e =
      { e with
        fragments := e.fragments.set j (some (payloads.getD j [])),
        received := e.received + 1, last_update := now } := by
    rw [storeFragment_empty_slot _ _ _ (by simpa [fragPacket] using hj)
      (by simpa [fragPacket] using hfj)]
    simp [fragPacket]
  rw [FrameAssembler.push, if_neg h1]
  simp only [hev, hget, hres, hsto]
  rw [if_pos (by simp [fragPacket, hrecv]; omega)]
  simp [fragPacket, alRemove]

theorem push_dup (hdr : VideoPacketHeader) (n now : Nat)
    (payloads : List (List Nat)) (done : List Nat) (e : FrameAssembly) (j : Nat)
    (hn : 2 ≤ n) (hj : j < n) (hjd : j ∈ done) (hinc : done.length < n)
    (hpart : isPartial n now payloads done e) :
    FrameAssembler.push ⟨[(hdr.frame_id, e)], 128, 2000⟩ now
        (fragPacket hdr n payloads j) =
      (none, ⟨[(hdr.frame_id, e)], 128, 2000⟩) := by
  obtain ⟨hlen, hrecv, hlast, hfrag⟩ := hpart
  have h1 : ¬ ((fragPacket hdr n payloads j).header.total_fragments ≤ 1) := by
    simp only [fragPacket]
    omega
  have hfj : e.fragments[j]? = some (some (payloads.getD j [])) := by
    rw [hfrag j hj, if_pos hjd]
  have hev : FrameAssembler.evictOld ⟨[(hdr.frame_id, e)], 128, 2000⟩ now
      = ⟨[(hdr.frame_id, e)], 128, 2000⟩ :=
    evictOld_fresh hdr.frame_id e 128 2000 now (by omega) (by omega)
  have hget : FrameAssembler.getEntry ⟨[(hdr.frame_id, e)], 128, 2000⟩ now
      (fragPacket hdr n payloads j) = e :=
    getEntry_singleton _ _ _ _ _ _ (by simp [fragPacket])
  have hres : resetIfMismatch now (fragPacket hdr n payloads j) e = e :=
    resetIfMismatch_same _ _ _ (by simpa [fragPacket] using hlen)
  have hsto : storeFragment now (fragPacket hdr n payloads j) e = e :=
    storeFragment_full_slot _ _ _ _ (by simpa [fragPacket] using hfj)
  rw [FrameAssembler.push, if_neg h1]
  simp only [hev, hget, hres, hsto]
  rw [if_neg (by simp [fragPacket, hrecv]; omega)]
  simp [fragPacket, alInsert]

theorem isPartial_init (hdr : VideoPacketHeader) (n now : Nat)
    (payloads : List (List Nat)) (j : Nat) (hj : j < n) :
    isPartial n now payloads [j]
      { header := { hdr with fragment_index := j, total_fragments := n },
        fragments := (List.replicate n none).set j (some (payloads.getD j [])),
        received := 1, last_update := now } := by
  refine ⟨by simp, rfl, rfl, ?_⟩
  intro i hi
  rw [List.getElem?_set]
  by_cases hij : j = i
  · subst hij
    simp [hj]
  · have hij' : i ≠ j := fun h => hij h.symm
    rw [if_neg hij, List.getElem?_replicate, if_pos hi]
    simp [hij']

theorem isPartial_step (n now : Nat) (payloads : List (List Nat))
    (done : List Nat) (e : FrameAssembly) (j : Nat) (hj : j < n)
    (hpart : isPartial n now payloads done e) :
    isPartial n now payloads (done ++ [j])
      { e with
        fragments := e.fragments.set j (some (payloads.getD j [])),
        received := done.length + 1, last_update := now } := by
  obtain ⟨hlen, hrecv, hlast, hfrag⟩ := hpart
  refine ⟨by simp [hlen], by simp, rfl, ?_⟩
  intro i hi
  rw [List.getElem?_set]
  by_cases hij : j = i
  · subst hij
    simp [hlen, hj]
  · have hij' : i ≠ j := fun h => hij h.symm
    rw [if_neg hij, hfrag i hi]
    simp [List.mem_append, hij']

/-- A duplicate-free list of `n` naturals below `n` contains every
natural below `n`. -/
theorem mem_of_nodup_length (done : List Nat) (n : Nat) (hnd : done.Nodup)
    (hlt : ∀ i ∈ done, i < n) (hlen : done.length = n) :
    ∀ i, i < n → i ∈ done := by
  intro i hi
  have hsub : done.toFinset ⊆ Finset.range n := by
    intro x hx
    simp only [Finset.mem_range]
    exact hlt x (List.mem_toFinset.mp hx)
  have hcard : done.toFinset.card = n := by
    rw [List.toFinset_card_of_nodup hnd, hlen]
  have heq : done.toFinset = Finset.range n :=
    Finset.eq_of_subset_of_card_le hsub (by simp [hcard])
  have : i ∈ done.toFinset := by
    rw [heq]
    simpa using hi
  exact List.mem_toFinset.mp this

/-- When every slot of a full assembly is filled with the corresponding
payload, the concatenation-with-take step recovers the full bitstream. -/
theorem assembled_payload (n : Nat) (payloads : List (List Nat))
    (hp : payloads.length = n) (frags : List (Option (List Nat)))
    (hl : frags.length = n)
    (hall : ∀ i, i < n → frags[i]? = some (some (payloads.getD i []))) :
    (frags.map (fun o => o.getD [])).flatten = payloads.flatten := by
  have hmap : frags.map (fun o => o.getD []) = payloads := by
    apply List.ext_getElem?
    intro i
    by_cases hi : i < n
    · have hi' : i < payloads.length := by omega
      have hx : payloads[i]? = some payloads[i] := List.getElem?_eq_getElem hi'
      rw [List.getElem?_map, hall i hi, hx]
      simp [List.getD_eq_getElem?_getD, hx]
    · rw [List.getElem?_map]
      have h1 : frags[i]? = none := by
        rw [List.getElem?_eq_none_iff]
        omega
      have h2 : payloads[i]? = none := by
        rw [List.getElem?_eq_none_iff]
        omega
      rw [h1, h2]
      rfl
  rw [hmap]

theorem pushSeq_complete_aux (hdr : VideoPacketHeader) (n now : Nat)
    (payloads : List (List Nat)) (hp : payloads.length = n) (hn : 2 ≤ n) :
    ∀ (os done : List Nat) (e : FrameAssembly),
      os ≠ [] →
      (done ++ os).Nodup → (∀ i ∈ done ++ os, i < n) →
      (done ++ os).length = n →
      isPartial n now payloads done e →
      FrameAssembler.pushSeq ⟨[(hdr.frame_id, e)], 128, 2000⟩ now
          (os.map (fragPacket hdr n payloads)) =
        (List.replicate (os.length - 1) none ++
          [some { header := e.header, payload := payloads.flatten }],
         ⟨[], 128, 2000⟩) := by
  intro os
  induction os with
  | nil => intro done e hne _ _ _ _; exact absurd rfl hne
  | cons j os' ih =>
    intro done e _ hnd hlt hlen hpart
    have hj : j < n := hlt j (by simp)
    have hmid : (j :: (done ++ os')).Nodup := List.nodup_middle.mp hnd
    have hjd : j ∉ done := fun h =>
      (List.nodup_cons.mp hmid).1 (List.mem_append_left _ h)
    have hassoc : done ++ j :: os' = (done ++ [j]) ++ os' := by simp
    by_cases hos : os' = []
    · subst hos
      have hfull : done.length + 1 = n := by
        simpa using hlen
      simp only [List.map_cons, List.map_nil, FrameAssembler.pushSeq]
      rw [push_step_complete hdr n now payloads done e j hn hj hjd hpart hfull]
      simp only [FrameAssembler.pushSeq]
      have hcover : ∀ i, i < n → i ∈ done ++ [j] := by
        apply mem_of_nodup_length
        · rw [hassoc] at hnd; simpa using hnd
        · intro i hi
          apply hlt
          rw [hassoc]
          simpa using hi
        · simpa using hfull
      obtain ⟨hflen, hfrecv, hflast, hffrag⟩ := hpart
      have hpay : ((e.fragments.set j (some (payloads.getD j []))).map
          (fun o => o.getD [])).flatten = payloads.flatten := by
        apply assembled_payload n payloads hp _ (by simpa using hflen)
        intro i hi
        rw [List.getElem?_set]
        by_cases hij : j = i
        · subst hij
          simp [hflen, hj]
        · have hij' : i ≠ j := fun hh => hij hh.symm
          rw [if_neg hij, hffrag i hi]
          have hidone : i ∈ done := by
            rcases List.mem_append.mp (hcover i hi) with h | h
            · exact h
            · exact absurd (List.mem_singleton.mp h) hij'
          simp [hidone]
      rw [hpay]
      simp
    · have hos1 : 1 ≤ os'.length := by
        cases os' with
        | nil => exact absurd rfl hos
        | cons _ _ => simp
      have hfull : done.length + 1 ≠ n := by
        have h1 : (done ++ j :: os').length = n := hlen
        simp only [List.length_append, List.length_cons] at h1
        omega
      simp only [List.map_cons, FrameAssembler.pushSeq]
      rw [push_step_incomplete hdr n now payloads done e j hn hj hjd hpart hfull]
      have hih := ih (done ++ [j])
        { e with
          fragments := e.fragments.set j (some (payloads.getD j [])),
          received := done.length + 1, last_update := now }
        hos (by rw [hassoc] at hnd; exact hnd)
        (by intro i hi; exact hlt i (by rw [hassoc]; exact hi))
        (by rw [hassoc] at hlen; exact hlen)
        (isPartial_step n now payloads done e j hj hpart)
      rw [hih]
      simp only [List.length_cons]
      have hlen2 : os'.length + 1 - 1 = (os'.length - 1) + 1 := by omega
      rw [hlen2, List.replicate_succ]
      simp

theorem pushSeq_partial_aux (hdr : VideoPacketHeader) (n now : Nat)
    (payloads : List (List Nat)) (hn : 2 ≤ n) :
    ∀ (os done : List Nat) (e : FrameAssembly),
      (done ++ os).Nodup → (∀ i ∈ done ++ os, i < n) →
      (done ++ os).length < n →
      isPartial n now payloads done e →
      ∃ e', (FrameAssembler.pushSeq ⟨[(hdr.frame_id, e)], 128, 2000⟩ now
          (os.map (fragPacket hdr n payloads))).2 =
            ⟨[(hdr.frame_id, e')], 128, 2000⟩ ∧
        isPartial n now payloads (done ++ os) e' := by
  intro os
  induction os with
  | nil =>
    intro done e _ _ _ hpart
    exact ⟨e, rfl, by simpa using hpart⟩
  | cons j os' ih =>
    intro done e hnd hlt hlen hpart
    have hj : j < n := hlt j (by simp)
    have hmid : (j :: (done ++ os')).Nodup := List.nodup_middle.mp hnd
    have hjd : j ∉ done := fun h =>
      (List.nodup_cons.mp hmid).1 (List.mem_append_left _ h)
    have hassoc : done ++ j :: os' = (done ++ [j]) ++ os' := by simp
    have hfull : done.length + 1 ≠ n := by
      have h1 : (done ++ j :: os').length < n := hlen
      simp only [List.length_append, List.length_cons] at h1
      omega
    simp only [List.map_cons, FrameAssembler.pushSeq]
    rw [push_step_incomplete hdr n now payloads done e j hn hj hjd hpart hfull]
    obtain ⟨e', hst, hpart'⟩ := ih (done ++ [j])
      { e with
        fragments := e.fragments.set j (some (payloads.getD j [])),
        received := done.length + 1, last_update := now }
      (by rw [hassoc] at hnd; exact hnd)
      (by intro i hi; exact hlt i (by rw [hassoc]; exact hi))
      (by rw [hassoc] at hlen; exact hlen)
      (isPartial_step n now payloads done e j hj hpart)
    refine ⟨e', hst, ?_⟩
    rw [hassoc]
    exact hpart'

/-- C2: pushing the `n ≥ 2` distinct fragments of one frame in any
permutation into a fresh viewer assembler yields the assembled frame
exactly once, on the final push, with payload equal to the
concatenation of the fragment payloads in index order, and the frame's
entry is gone afterwards; and re-pushing an already-stored fragment of
the still-incomplete frame returns `none` and leaves the assembler
state (fragments and received count included) exactly unchanged. -/
theorem C2_assembler_permutation (hdr : VideoPacketHeader) (n now : Nat)
    (payloads : List (List Nat)) (order : List Nat)
    (hn : 2 ≤ n) (hp : payloads.length = n)
    (hperm : order.Perm (List.range n)) :
    (∃ h', FrameAssembler.pushSeq (FrameAssembler.new 128 2000) now
        (order.map (fragPacket hdr n payloads)) =
      (List.replicate (n - 1) none ++
        [some { header := h', payload := payloads.flatten }],
       FrameAssembler.new 128 2000)) ∧
    (∀ k j, 0 < k → k < n → j ∈ order.take k →
      (FrameAssembler.pushSeq (FrameAssembler.new 128 2000) now
          ((order.take k).map (fragPacket hdr n payloads))).2.push now
          (fragPacket hdr n payloads j) =
        (none, (FrameAssembler.pushSeq (FrameAssembler.new 128 2000) now
          ((order.take k).map (fragPacket hdr n payloads))).2)) := by
  have hnody : order.Nodup := hperm.nodup_iff.mpr (List.nodup_range n)
  have hmem : ∀ i ∈ order, i < n := fun i h =>
    List.mem_range.mp (hperm.mem_iff.mp h)
  have hlen : order.length = n := by
    rw [hperm.length_eq, List.length_range]
  constructor
  · cases order with
    | nil => simp at hlen; omega
    | cons j0 rest =>
      have hj0 : j0 < n := hmem j0 (by simp)
      have hrest : rest ≠ [] := by
        intro h
        rw [h] at hlen
        simp at hlen
        omega
      refine ⟨{ hdr with fragment_index := j0, total_fragments := n }, ?_⟩
      simp only [List.map_cons, FrameAssembler.pushSeq]
      rw [push_init hdr n now payloads j0 hn hj0]
      rw [pushSeq_complete_aux hdr n now payloads hp hn rest [j0] _ hrest
        (by simpa using hnody)
        (by intro i hi; exact hmem i (by simpa using hi))
        (by simpa using hlen)
        (isPartial_init hdr n now payloads j0 hj0)]
      have h2 : n - 1 = (rest.length - 1) + 1 := by
        simp only [List.length_cons] at hlen
        cases rest with
        | nil => exact absurd rfl hrest
        | cons a l => simp at hlen ⊢; omega
      rw [h2, List.replicate_succ]
      simp [FrameAssembler.new]
  · intro k j hk hkn hjk
    have hne : order.take k ≠ [] := by
      intro h
      rw [h] at hjk
      simp at hjk
    obtain ⟨j0, ps', hps⟩ := List.exists_cons_of_ne_nil hne
    have htknd : (order.take k).Nodup := hnody.sublist (List.take_sublist k order)
    have htkmem : ∀ i ∈ order.take k, i < n := fun i h =>
      hmem i (List.take_subset k order h)
    have htklen : (order.take k).length = k := by
      rw [List.length_take]
      omega
    have hj0 : j0 < n := htkmem j0 (by rw [hps]; simp)
    obtain ⟨e', hst, hpart⟩ := pushSeq_partial_aux hdr n now payloads hn ps' [j0]
      { header := { hdr with fragment_index := j0, total_fragments := n },
        fragments := (List.replicate n none).set j0
          (some (payloads.getD j0 [])),
        received := 1, last_update := now }
      (by rw [hps] at htknd; simpa using htknd)
      (by intro i hi; exact htkmem i (by rw [hps]; simpa using hi))
      (by rw [hps] at htklen; simp only [List.length_cons] at htklen; simp; omega)
      (isPartial_init hdr n now payloads j0 hj0)
    have hdecomp : (FrameAssembler.pushSeq (FrameAssembler.new 128 2000) now
        ((order.take k).map (fragPacket hdr n payloads))).2 =
          ⟨[(hdr.frame_id, e')], 128, 2000⟩ := by
      rw [hps]
      simp only [List.map_cons, FrameAssembler.pushSeq]
      rw [push_init hdr n now payloads j0 hn hj0]
      exact hst
    rw [hdecomp]
    have hjle : j ∈ [j0] ++ ps' := by
      rw [List.singleton_append, ← hps]
      exact hjk
    have hjn : j < n := htkmem j hjk
    have hinc : ([j0] ++ ps').length < n := by
      rw [List.singleton_append, ← hps, htklen]
      exact hkn
    exact push_dup hdr n now payloads ([j0] ++ ps') e' j hn hjn hjle hinc hpart

/-- Witness for C2: the two fragments of a 2-fragment frame pushed in
the order 1, 0. -/
theorem C2_assembler_permutation_witness :
    (2 ≤ 2 ∧ ([[1], [2]] : List (List Nat)).length = 2 ∧
      ([1, 0] : List Nat).Perm (List.range 2)) ∧
    ((∃ h', FrameAssembler.pushSeq (FrameAssembler.new 128 2000) 3
        (([1, 0] : List Nat).map (fragPacket hdrA 2 [[1], [2]])) =
      (List.replicate (2 - 1) none ++
        [some { header := h', payload := ([[1], [2]] : List (List Nat)).flatten }],
       FrameAssembler.new 128 2000)) ∧
    (∀ k j, 0 < k → k < 2 → j ∈ ([1, 0] : List Nat).take k →
      (FrameAssembler.pushSeq (FrameAssembler.new 128 2000) 3
          ((([1, 0] : List Nat).take k).map (fragPacket hdrA 2 [[1], [2]]))).2.push 3
          (fragPacket hdrA 2 [[1], [2]] j) =
        (none, (FrameAssembler.pushSeq (FrameAssembler.new 128 2000) 3
          ((([1, 0] : List Nat).take k).map (fragPacket hdrA 2 [[1], [2]]))).2))) :=
  ⟨⟨by omega, by decide, by decide⟩,
    C2_assembler_permutation hdrA 2 3 [[1], [2]] [1, 0]
      (by omega) (by decide) (by decide)⟩

/-! ### Eviction of stale assemblies (C7) -/

theorem lookup_eq_none_of_all_ne {l : List (Nat × FrameAssembly)} {fid : Nat}
    (h : ∀ kv ∈ l, kv.1 ≠ fid) : l.lookup fid = none := by
  induction l with
  | nil => rfl
  | cons kv rest ih =>
    have h1 : kv.1 ≠ fid := h kv (by simp)
    have h2 : (fid == kv.1) = false := by
      simp [Ne.symm h1]
    simp only [List.lookup, h2]
    exact ih (fun x hx => h x (List.mem_cons_of_mem _ hx))

theorem mem_of_lookup_eq_some {l : List (Nat × FrameAssembly)} {fid : Nat}
    {e : FrameAssembly} (h : l.lookup fid = some e) : (fid, e) ∈ l := by
  induction l with
  | nil => simp [List.lookup] at h
  | cons kv rest ih =>
    obtain ⟨k, v⟩ := kv
    by_cases hk : fid = k
    · subst hk
      simp only [List.lookup, beq_self_eq_true] at h
      obtain rfl : v = e := by simpa using h
      exact List.mem_cons_self ..
    · have h2 : (fid == k) = false := by simp [hk]
      simp only [List.lookup, h2] at h
      exact List.mem_cons_of_mem _ (ih h)

theorem mem_alRemove_subset {l : List (Nat × FrameAssembly)} {i : Nat}
    {kv : Nat × FrameAssembly} (h : kv ∈ alRemove i l) : kv ∈ l := by
  induction l with
  | nil => simp [alRemove] at h
  | cons hd rest ih =>
    obtain ⟨k, v⟩ := hd
    simp only [alRemove] at h
    by_cases hk : k = i
    · rw [if_pos hk] at h
      exact List.mem_cons_of_mem _ h
    · rw [if_neg hk] at h
      rcases List.mem_cons.mp h with h1 | h1
      · exact h1 ▸ List.mem_cons_self ..
      · exact List.mem_cons_of_mem _ (ih h1)

theorem alInsert_lookup_self (k : Nat) (e : FrameAssembly)
    (l : List (Nat × FrameAssembly)) : (alInsert k e l).lookup k = some e := by
  induction l with
  | nil => simp [alInsert, List.lookup]
  | cons hd rest ih =>
    obtain ⟨k', v⟩ := hd
    simp only [alInsert]
    by_cases hk : k' = k
    · rw [if_pos hk]
      simp [List.lookup]
    · rw [if_neg hk]
      have h2 : (k == k') = false := by simp [Ne.symm hk]
      simp only [List.lookup, h2]
      exact ih

theorem alInsert_lookup_ne (k fid : Nat) (hne : k ≠ fid) (e : FrameAssembly)
    (l : List (Nat × FrameAssembly)) :
    (alInsert k e l).lookup fid = l.lookup fid := by
  induction l with
  | nil =>
    have h2 : (fid == k) = false := by simp [Ne.symm hne]
    simp [alInsert, List.lookup, h2]
  | cons hd rest ih =>
    obtain ⟨k', v⟩ := hd
    simp only [alInsert]
    by_cases hk : k' = k
    · subst hk
      have h2 : (fid == k') = false := by simp [Ne.symm hne]
      simp [List.lookup, h2]
    · rw [if_neg hk]
      simp only [List.lookup]
      cases hfk : (fid == k') with
      | true => rfl
      | false => exact ih

theorem foldl_remove_eq (ids : List Nat) (a0 : FrameAssembler) :
    ids.foldl (fun m i => { m with frames := alRemove i m.frames }) a0 =
      { a0 with frames := ids.foldl (fun fr i => alRemove i fr) a0.frames } := by
  induction ids generalizing a0 with
  | nil => rfl
  | cons i ids ih =>
    simp only [List.foldl_cons]
    rw [ih]

theorem mem_foldl_alRemove_subset :
    ∀ (ids : List Nat) (fr : List (Nat × FrameAssembly))
      (kv : Nat × FrameAssembly),
      kv ∈ ids.foldl (fun fr i => alRemove i fr) fr → kv ∈ fr := by
  intro ids
  induction ids with
  | nil => intro fr kv h; exact h
  | cons i ids ih =>
    intro fr kv h
    simp only [List.foldl_cons] at h
    exact mem_alRemove_subset (ih _ _ h)

/-- The frames surviving `evict_old` all survived the staleness filter. -/
theorem mem_evictOld_subset (a : FrameAssembler) (now : Nat)
    {kv : Nat × FrameAssembly} (h : kv ∈ (a.evictOld now).frames) :
    kv ∈ a.frames.filter (fun kv => now - a.max_age ≤ kv.2.last_update) := by
  rw [FrameAssembler.evictOld] at h
  simp only at h
  by_cases hc : a.max_frames <
      (a.frames.filter (fun kv => now - a.max_age ≤ kv.2.last_update)).length
  · rw [if_pos (by simpa using hc), foldl_remove_eq] at h
    exact mem_foldl_alRemove_subset _ _ _ h
  · rw [if_neg (by simpa using hc)] at h
    exact h

theorem lookup_eq_none_iff {l : List (Nat × FrameAssembly)} {fid : Nat} :
    l.lookup fid = none ↔ fid ∉ l.map Prod.fst := by
  induction l with
  | nil => simp [List.lookup]
  | cons hd rest ih =>
    obtain ⟨k, v⟩ := hd
    by_cases hf : fid = k
    · subst hf
      simp [List.lookup]
    · have h2 : (fid == k) = false := by simp [hf]
      simp only [List.lookup, h2, List.map_cons, List.mem_cons]
      rw [ih]
      constructor
      · intro h hc
        rcases hc with hc | hc
        · exact hf hc
        · exact h hc
      · intro h hc
        exact h (Or.inr hc)

theorem eq_of_mem_of_nodup_keys {l : List (Nat × FrameAssembly)}
    (hnd : (l.map Prod.fst).Nodup) {kv1 kv2 : Nat × FrameAssembly}
    (h1 : kv1 ∈ l) (h2 : kv2 ∈ l) (hk : kv1.1 = kv2.1) : kv1 = kv2 := by
  induction l with
  | nil => simp at h1
  | cons hd rest ih =>
    simp only [List.map_cons, List.nodup_cons] at hnd
    rcases List.mem_cons.mp h1 with e1 | e1 <;>
      rcases List.mem_cons.mp h2 with e2 | e2
    · rw [e1, e2]
    · exact absurd (List.mem_map.mpr ⟨kv2, e2, by rw [← hk, e1]⟩) hnd.1
    · exact absurd (List.mem_map.mpr ⟨kv1, e1, by rw [hk, e2]⟩) hnd.1
    · exact ih hnd.2 e1 e2

/-- After `evict_old`, a stale entry's key no longer resolves. -/
theorem evictOld_lookup_stale_none (a : FrameAssembler) (now fid : Nat)
    (e : FrameAssembly) (hnd : (a.frames.map Prod.fst).Nodup)
    (hlk : a.frames.lookup fid = some e)
    (hstale : e.last_update < now - a.max_age) :
    (a.evictOld now).frames.lookup fid = none := by
  apply lookup_eq_none_of_all_ne
  intro kv hkv hke
  have hmem := mem_evictOld_subset a now hkv
  have hkv_mem : kv ∈ a.frames := List.mem_of_mem_filter hmem
  have hpred : now - a.max_age ≤ kv.2.last_update := by
    simpa using List.of_mem_filter hmem
  have hfe : (fid, e) ∈ a.frames := mem_of_lookup_eq_some hlk
  have hkv_eq : kv = (fid, e) :=
    eq_of_mem_of_nodup_keys hnd hkv_mem hfe (by rw [hke])
  rw [hkv_eq] at hpred
  simp only at hpred
  omega

theorem getEntry_of_lookup_none (a1 : FrameAssembler) (now : Nat)
    (p : VideoPacket) (h : a1.frames.lookup p.header.frame_id = none) :
    a1.getEntry now p =
      { header := p.header,
        fragments := List.replicate p.header.total_fragments none,
        received := 0, last_update := now } := by
  rw [FrameAssembler.getEntry, h]

theorem storeFragment_header (now : Nat) (p : VideoPacket) (e : FrameAssembly) :
    (storeFragment now p e).header = e.header := by
  rw [storeFragment]
  split <;> rfl

theorem storeFragment_received_le (now : Nat) (p : VideoPacket)
    (e : FrameAssembly) :
    (storeFragment now p e).received ≤ e.received + 1 := by
  rw [storeFragment]
  split <;> simp

theorem resetIfMismatch_frame_id (now : Nat) (p : VideoPacket)
    (e : FrameAssembly) (h : e.header.frame_id = p.header.frame_id) :
    (resetIfMismatch now p e).header.frame_id = p.header.frame_id := by
  rw [resetIfMismatch]
  split
  · rfl
  · exact h

theorem storeFragment_last (now : Nat) (p : VideoPacket) (e : FrameAssembly)
    (h : e.last_update = now) : (storeFragment now p e).last_update = now := by
  rw [storeFragment]
  split
  · rfl
  · exact h

theorem push_eval (a : FrameAssembler) (now : Nat) (p : VideoPacket)
    (htot : ¬ (p.header.total_fragments ≤ 1)) :
    a.push now p =
      (if (storeFragment now p (resetIfMismatch now p
            ((a.evictOld now).getEntry now p))).received =
          p.header.total_fragments then
        (some { header := (storeFragment now p (resetIfMismatch now p
                  ((a.evictOld now).getEntry now p))).header,
                payload := ((storeFragment now p (resetIfMismatch now p
                  ((a.evictOld now).getEntry now p))).fragments.map
                    (fun o => o.getD [])).flatten },
         { a.evictOld now with
            frames := alRemove p.header.frame_id (a.evictOld now).frames })
      else
        (none, { a.evictOld now with
            frames := alInsert p.header.frame_id
              (storeFragment now p (resetIfMismatch now p
                ((a.evictOld now).getEntry now p)))
              (a.evictOld now).frames })) := by
  rw [FrameAssembler.push, if_neg htot]

/-- Stale-eviction behaviour of a multi-fragment `push` (C7 part 1): the
stale assembly is discarded and never yielded; its key is absent
afterwards unless the pushed packet itself bears that frame id, in
which case the entry holds a fresh assembly with at most the pushed
fragment. -/
theorem stale_entry_evicted (a : FrameAssembler) (now : Nat) (p : VideoPacket)
    (fid : Nat) (e : FrameAssembly)
    (hnd : (a.frames.map Prod.fst).Nodup)
    (hkey : ∀ kv ∈ a.frames, kv.2.header.frame_id = kv.1)
    (hlk : a.frames.lookup fid = some e)
    (_hpart : e.received < e.header.total_fragments)
    (hstale : a.max_age < now - e.last_update)
    (htot : 2 ≤ p.header.total_fragments) :
    (∀ q, (a.push now p).1 = some q →
        q.header.frame_id = p.header.frame_id) ∧
    (fid = p.header.frame_id →
      (a.push now p).1 = none ∧
      ∃ e', (a.push now p).2.frames.lookup fid = some e' ∧
        e'.received ≤ 1 ∧ e'.last_update = now) ∧
    (fid ≠ p.header.frame_id → (a.push now p).2.frames.lookup fid = none) := by
  have hstale' : e.last_update < now - a.max_age := by omega
  have hlkev : (a.evictOld now).frames.lookup fid = none :=
    evictOld_lookup_stale_none a now fid e hnd hlk hstale'
  have hfidE : ((a.evictOld now).getEntry now p).header.frame_id =
      p.header.frame_id := by
    rw [FrameAssembler.getEntry]
    cases hl : (a.evictOld now).frames.lookup p.header.frame_id with
    | none => rfl
    | some e2 =>
      have hmem : (p.header.frame_id, e2) ∈ a.frames :=
        List.mem_of_mem_filter (mem_evictOld_subset a now
          (mem_of_lookup_eq_some hl))
      simpa using hkey _ hmem
  have hfid2 : (storeFragment now p (resetIfMismatch now p
      ((a.evictOld now).getEntry now p))).header.frame_id =
        p.header.frame_id := by
    rw [storeFragment_header]
    exact resetIfMismatch_frame_id now p _ hfidE
  rw [push_eval a now p (by omega)]
  refine ⟨?_, ?_, ?_⟩
  · intro q hq
    split at hq
    · simp only [Option.some.injEq] at hq
      rw [← hq]
      exact hfid2
    · simp at hq
  · intro hfp
    subst hfp
    have hge : (a.evictOld now).getEntry now p =
        { header := p.header,
          fragments := List.replicate p.header.total_fragments none,
          received := 0, last_update := now } :=
      getEntry_of_lookup_none _ _ _ hlkev
    have hre : resetIfMismatch now p ((a.evictOld now).getEntry now p) =
        { header := p.header,
          fragments := List.replicate p.header.total_fragments none,
          received := 0, last_update := now } := by
      rw [hge]
      exact resetIfMismatch_same _ _ _ (by simp)
    have hrec : (storeFragment now p (resetIfMismatch now p
        ((a.evictOld now).getEntry now p))).received ≤ 1 := by
      rw [hre]
      simpa using storeFragment_received_le now p _
    have hlast : (storeFragment now p (resetIfMismatch now p
        ((a.evictOld now).getEntry now p))).last_update = now := by
      rw [hre]
      exact storeFragment_last _ _ _ rfl
    rw [if_neg (by omega)]
    exact ⟨rfl, _, alInsert_lookup_self _ _ _, hrec, hlast⟩
  · intro hne
    split
    · apply lookup_eq_none_of_all_ne
      intro kv hkv hke
      have hkv2 : kv ∈ (a.evictOld now).frames := mem_alRemove_subset hkv
      exact absurd (List.mem_map.mpr ⟨kv, hkv2, hke⟩)
        (lookup_eq_none_iff.mp hlkev)
    · rw [alInsert_lookup_ne _ _ (fun h => hne h.symm)]
      exact hlkev

theorem map_fst_alRemove (i : Nat) (l : List (Nat × FrameAssembly)) :
    (alRemove i l).map Prod.fst = (l.map Prod.fst).erase i := by
  induction l with
  | nil => rfl
  | cons hd rest ih =>
    obtain ⟨k, v⟩ := hd
    simp only [alRemove, List.map_cons]
    by_cases hk : k = i
    · subst hk
      rw [if_pos rfl, List.erase_cons_head]
    · rw [if_neg hk, List.map_cons, List.erase_cons_tail (by simpa using hk), ih]

theorem map_fst_foldl_alRemove :
    ∀ (ids : List Nat) (fr : List (Nat × FrameAssembly)),
      (ids.foldl (fun fr i => alRemove i fr) fr).map Prod.fst =
        ids.foldl (fun ks i => ks.erase i) (fr.map Prod.fst) := by
  intro ids
  induction ids with
  | nil => intro fr; rfl
  | cons i ids ih =>
    intro fr
    simp only [List.foldl_cons]
    rw [ih, map_fst_alRemove]

theorem mem_foldl_erase_iff :
    ∀ (ids : List Nat) (ks : List Nat) (x : Nat), ks.Nodup →
      (x ∈ ids.foldl (fun ks i => ks.erase i) ks ↔ x ∈ ks ∧ x ∉ ids) := by
  intro ids
  induction ids with
  | nil => intro ks x _; simp
  | cons i ids ih =>
    intro ks x hnd
    simp only [List.foldl_cons]
    rw [ih _ _ (hnd.erase i), hnd.mem_erase_iff]
    simp only [List.mem_cons]
    constructor
    · rintro ⟨⟨hxi, hxk⟩, hxids⟩
      exact ⟨hxk, by rintro (h | h); exact hxi h; exact hxids h⟩
    · rintro ⟨hxk, hx⟩
      exact ⟨⟨fun h => hx (Or.inl h), hxk⟩, fun h => hx (Or.inr h)⟩

theorem length_foldl_erase :
    ∀ (ids : List Nat) (ks : List Nat), ks.Nodup → ids.Nodup →
      (∀ i ∈ ids, i ∈ ks) →
      (ids.foldl (fun ks i => ks.erase i) ks).length = ks.length - ids.length := by
  intro ids
  induction ids with
  | nil => intro ks _ _ _; simp
  | cons i ids ih =>
    intro ks hknd hind hsub
    have hi : i ∈ ks := hsub i (by simp)
    have hkpos : 0 < ks.length := List.length_pos.mpr (by rintro rfl; simp at hi)
    simp only [List.foldl_cons]
    rw [ih _ (hknd.erase i) (List.nodup_cons.mp hind).2]
    · rw [List.length_erase_of_mem hi]
      simp only [List.length_cons]
      omega
    · intro j hj
      rw [hknd.mem_erase_iff]
      refine ⟨?_, hsub j (List.mem_cons_of_mem _ hj)⟩
      intro hji
      exact (List.nodup_cons.mp hind).1 (hji ▸ hj)

/-- Capacity eviction (C7 part 2): when more than `max_frames`
assemblies survive the staleness filter, `evict_old` keeps exactly
`max_frames` of them, and every removed assembly is at least as old
(by `last_update`) as every surviving one. -/
theorem capacity_eviction (a : FrameAssembler) (now : Nat)
    (hnd : (a.frames.map Prod.fst).Nodup)
    (hover : a.max_frames <
      (a.frames.filter (fun kv => now - a.max_age ≤ kv.2.last_update)).length) :
    (a.evictOld now).frames.length = a.max_frames ∧
    (∀ kv ∈ (a.evictOld now).frames,
      kv ∈ a.frames.filter (fun kv => now - a.max_age ≤ kv.2.last_update)) ∧
    ∀ r ∈ a.frames.filter (fun kv => now - a.max_age ≤ kv.2.last_update),
      (a.evictOld now).frames.lookup r.1 = none →
      ∀ kv ∈ (a.evictOld now).frames, r.2.last_update ≤ kv.2.last_update := by
  have hef : (a.evictOld now).frames =
      List.foldl (fun fr i => alRemove i fr)
        (a.frames.filter (fun kv => now - a.max_age ≤ kv.2.last_update))
        ((List.take
          ((((a.frames.filter
              (fun kv => now - a.max_age ≤ kv.2.last_update)).map
                (fun kv => (kv.1, kv.2.last_update))).mergeSort
                  (fun x y => x.2 ≤ y.2)).length - a.max_frames)
          (((a.frames.filter
              (fun kv => now - a.max_age ≤ kv.2.last_update)).map
                (fun kv => (kv.1, kv.2.last_update))).mergeSort
                  (fun x y => x.2 ≤ y.2))).map Prod.fst) := by
    rw [FrameAssembler.evictOld]
    simp only
    rw [if_pos (by simpa using hover), foldl_remove_eq]
  set kept := a.frames.filter (fun kv => now - a.max_age ≤ kv.2.last_update)
    with hkept
  set entries := (kept.map (fun kv => (kv.1, kv.2.last_update))).mergeSort
    (fun x y => x.2 ≤ y.2) with hentries
  set tr := entries.length - a.max_frames with htr
  set removeIds := (entries.take tr).map Prod.fst with hrids
  have hperm : entries.Perm (kept.map (fun kv => (kv.1, kv.2.last_update))) :=
    List.mergeSort_perm _ _
  have hkeysperm : (entries.map Prod.fst).Perm (kept.map Prod.fst) := by
    have h1 := hperm.map Prod.fst
    rw [List.map_map] at h1
    exact h1
  have hkeptnd : (kept.map Prod.fst).Nodup := by
    apply List.Nodup.sublist _ hnd
    exact (List.filter_sublist a.frames).map Prod.fst
  have hentlen : entries.length = kept.length := by
    rw [hperm.length_eq, List.length_map]
  have hentnd : (entries.map Prod.fst).Nodup := hkeysperm.nodup_iff.mpr hkeptnd
  have hrid_take : removeIds = (entries.map Prod.fst).take tr := by
    rw [hrids, List.map_take]
  have hridnd : removeIds.Nodup := by
    rw [hrid_take]
    exact hentnd.sublist (List.take_sublist _ _)
  have hridsub : ∀ i ∈ removeIds, i ∈ kept.map Prod.fst := by
    intro i hi
    rw [hrid_take] at hi
    exact hkeysperm.mem_iff.mp (List.take_subset _ _ hi)
  have hridlen : removeIds.length = tr := by
    rw [hrid_take, List.length_take, List.length_map]
    omega
  have hkeys : ((a.evictOld now).frames.map Prod.fst) =
      removeIds.foldl (fun ks i => ks.erase i) (kept.map Prod.fst) := by
    rw [hef, map_fst_foldl_alRemove]
  refine ⟨?_, ?_, ?_⟩
  · have h1 : ((a.evictOld now).frames.map Prod.fst).length =
        (kept.map Prod.fst).length - removeIds.length := by
      rw [hkeys]
      exact length_foldl_erase _ _ hkeptnd hridnd hridsub
    rw [List.length_map, List.length_map] at h1
    rw [h1, hridlen, htr, hentlen]
    omega
  · intro kv hkv
    rw [hef] at hkv
    exact mem_foldl_alRemove_subset _ _ _ hkv
  · intro r hr hnone kv hkv
    -- r was removed: its key is among removeIds
    have hrk : r.1 ∈ removeIds := by
      have h1 : r.1 ∉ (a.evictOld now).frames.map Prod.fst :=
        lookup_eq_none_iff.mp hnone
      rw [hkeys] at h1
      have h2 := mem_foldl_erase_iff removeIds (kept.map Prod.fst) r.1 hkeptnd
      by_contra hco
      exact h1 (h2.mpr ⟨List.mem_map.mpr ⟨r, hr, rfl⟩, hco⟩)
    -- the pair recorded for r sits in the removed (sorted-prefix) part
    obtain ⟨pr, hprtk, hprk⟩ := List.mem_map.mp hrk
    have hpr_ent : pr ∈ kept.map (fun kv => (kv.1, kv.2.last_update)) :=
      hperm.mem_iff.mp (List.take_subset _ _ hprtk)
    obtain ⟨r', hr', hr'eq⟩ := List.mem_map.mp hpr_ent
    have hreq : r' = r := by
      apply eq_of_mem_of_nodup_keys hkeptnd hr' hr
      rw [show r'.1 = pr.1 from by rw [← hr'eq], hprk]
    have hpr2 : pr.2 = r.2.last_update := by
      rw [← hr'eq, hreq]
    -- the pair recorded for kv sits in the surviving (sorted-suffix) part
    have hkv_kept : kv ∈ kept := by
      rw [hef] at hkv
      exact mem_foldl_alRemove_subset _ _ _ hkv
    have hkv_not_rid : kv.1 ∉ removeIds := by
      have h1 : kv.1 ∈ (a.evictOld now).frames.map Prod.fst :=
        List.mem_map.mpr ⟨kv, hkv, rfl⟩
      rw [hkeys] at h1
      exact ((mem_foldl_erase_iff removeIds (kept.map Prod.fst) kv.1
        hkeptnd).mp h1).2
    have hqv_ent : (kv.1, kv.2.last_update) ∈ entries :=
      hperm.mem_iff.mpr (List.mem_map.mpr ⟨kv, hkv_kept, rfl⟩)
    have hqv_drop : (kv.1, kv.2.last_update) ∈ entries.drop tr := by
      have hsplit : entries.take tr ++ entries.drop tr = entries :=
        List.take_append_drop tr entries
      rw [← hsplit] at hqv_ent
      rcases List.mem_append.mp hqv_ent with h1 | h1
      · exact absurd (List.mem_map.mpr ⟨_, h1, rfl⟩) hkv_not_rid
      · exact h1
    -- sortedness of `entries` gives the comparison
    have hpw : entries.Pairwise
        (fun x y => (fun x y => decide (x.2 ≤ y.2)) x y = true) :=
      List.sorted_mergeSort
        (by intro x y z hxy hyz; simp only [decide_eq_true_eq] at *; omega)
        (by intro x y; simp [Nat.le_total])
        (kept.map (fun kv => (kv.1, kv.2.last_update)))
    have hsplit : entries.take tr ++ entries.drop tr = entries :=
      List.take_append_drop tr entries
    rw [← hsplit] at hpw
    obtain ⟨_, _, hcross⟩ := List.pairwise_append.mp hpw
    have := hcross pr hprtk (kv.1, kv.2.last_update) hqv_drop
    simp only [decide_eq_true_eq] at this
    omega

/-- A stale partial assembly: 1 of 3 fragments, last updated at time 0. -/
def staleAsm : FrameAssembly :=
  { header := { hdrA with frame_id := 1, total_fragments := 3 },
    fragments := [some [9], none, none], received := 1, last_update := 0 }

/-- An assembler holding only the stale assembly for frame 1, with the
viewer's parameters (128 frames, 2000 ms). -/
def staleAssembler : FrameAssembler :=
  { frames := [(1, staleAsm)], max_frames := 128, max_age := 2000 }

/-- A later fragment of the same frame 1, pushed at time 3000. -/
def lateFragment : VideoPacket :=
  { header := { hdrA with frame_id := 1, fragment_index := 1, total_fragments := 3 },
    payload := [5] }

/-- Counterexample to C7 as stated: when the next multi-fragment push
carries the stale frame's own id, the stale assembly is dropped but a
fresh entry for that frame id is created by the same push, so the entry
is not absent afterwards. -/
theorem C7_counterexample :
    ¬ (∀ (a : FrameAssembler) (now : Nat) (p : VideoPacket) (fid : Nat)
        (e : FrameAssembly),
        a.frames.lookup fid = some e →
        e.received < e.header.total_fragments →
        a.max_age < now - e.last_update →
        2 ≤ p.header.total_fragments →
        (a.push now p).2.frames.lookup fid = none) := by
  intro hall
  have h := hall staleAssembler 3000 lateFragment 1 staleAsm
    (by decide) (by decide) (by decide) (by decide)
  exact absurd h (by decide)

/-- C7 (amended): a partial assembly staler than `max_age` at the next
multi-fragment push is discarded by that push and never yielded; its
key is absent afterwards unless the pushed packet itself bears that
frame id, in which case the key maps to a fresh assembly (at most the
pushed fragment, `received ≤ 1`, updated at `now`).  And when more than
`max_frames` assemblies survive the staleness filter, the eviction
keeps exactly `max_frames` survivors, each removed assembly being no
younger than every survivor. -/
theorem C7_stale_and_capacity_eviction :
    (∀ (a : FrameAssembler) (now : Nat) (p : VideoPacket) (fid : Nat)
        (e : FrameAssembly),
      (a.frames.map Prod.fst).Nodup →
      (∀ kv ∈ a.frames, kv.2.header.frame_id = kv.1) →
      a.frames.lookup fid = some e →
      e.received < e.header.total_fragments →
      a.max_age < now - e.last_update →
      2 ≤ p.header.total_fragments →
      ((∀ q, (a.push now p).1 = some q →
          q.header.frame_id = p.header.frame_id) ∧
       (fid = p.header.frame_id →
         (a.push now p).1 = none ∧
         ∃ e', (a.push now p).2.frames.lookup fid = some e' ∧
           e'.received ≤ 1 ∧ e'.last_update = now) ∧
       (fid ≠ p.header.frame_id →
         (a.push now p).2.frames.lookup fid = none))) ∧
    (∀ (a : FrameAssembler) (now : Nat),
      (a.frames.map Prod.fst).Nodup →
      a.max_frames <
        (a.frames.filter (fun kv => now - a.max_age ≤ kv.2.last_update)).length →
      ((a.evictOld now).frames.length = a.max_frames ∧
       (∀ kv ∈ (a.evictOld now).frames,
         kv ∈ a.frames.filter (fun kv => now - a.max_age ≤ kv.2.last_update)) ∧
       ∀ r ∈ a.frames.filter (fun kv => now - a.max_age ≤ kv.2.last_update),
         (a.evictOld now).frames.lookup r.1 = none →
         ∀ kv ∈ (a.evictOld now).frames,
           r.2.last_update ≤ kv.2.last_update)) :=
  ⟨fun a now p fid e h1 h2 h3 h4 h5 h6 =>
      stale_entry_evicted a now p fid e h1 h2 h3 h4 h5 h6,
    fun a now h1 h2 => capacity_eviction a now h1 h2⟩

/-- A 3-entry assembler over capacity 2, nothing stale at time 100. -/
def overfullAssembler : FrameAssembler :=
  { frames :=
      [(1, { staleAsm with last_update := 30 }),
       (2, { staleAsm with last_update := 10 }),
       (3, { staleAsm with last_update := 20 })],
    max_frames := 2, max_age := 2000 }

/-- Witness for C7 at concrete inputs: the stale part at
`staleAssembler` (a push of an unrelated frame 2 removes the stale
frame-1 entry), and the capacity part at `overfullAssembler`. -/
theorem C7_stale_and_capacity_eviction_witness :
    (((staleAssembler.frames.map Prod.fst).Nodup ∧
      (∀ kv ∈ staleAssembler.frames, kv.2.header.frame_id = kv.1) ∧
      staleAssembler.frames.lookup 1 = some staleAsm ∧
      staleAsm.received < staleAsm.header.total_fragments ∧
      staleAssembler.max_age < 3000 - staleAsm.last_update ∧
      2 ≤ (VideoPacket.mk { hdrA with frame_id := 2, total_fragments := 2 }
        [7]).header.total_fragments) ∧
     ((∀ q, (staleAssembler.push 3000
          (VideoPacket.mk { hdrA with frame_id := 2, total_fragments := 2 }
            [7])).1 = some q →
         q.header.frame_id = (VideoPacket.mk
           { hdrA with frame_id := 2, total_fragments := 2 }
           [7]).header.frame_id) ∧
      ((1 : Nat) = (VideoPacket.mk
          { hdrA with frame_id := 2, total_fragments := 2 }
          [7]).header.frame_id →
        (staleAssembler.push 3000 (VideoPacket.mk
          { hdrA with frame_id := 2, total_fragments := 2 } [7])).1 = none ∧
        ∃ e', (staleAssembler.push 3000 (VideoPacket.mk
            { hdrA with frame_id := 2, total_fragments := 2 }
            [7])).2.frames.lookup 1 = some e' ∧
          e'.received ≤ 1 ∧ e'.last_update = 3000) ∧
      ((1 : Nat) ≠ (VideoPacket.mk
          { hdrA with frame_id := 2, total_fragments := 2 }
          [7]).header.frame_id →
        (staleAssembler.push 3000 (VideoPacket.mk
          { hdrA with frame_id := 2, total_fragments := 2 }
          [7])).2.frames.lookup 1 = none))) ∧
    (((overfullAssembler.frames.map Prod.fst).Nodup ∧
      overfullAssembler.max_frames <
        (overfullAssembler.frames.filter
          (fun kv => 100 - overfullAssembler.max_age ≤
            kv.2.last_update)).length) ∧
     ((overfullAssembler.evictOld 100).frames.length =
        overfullAssembler.max_frames ∧
      (∀ kv ∈ (overfullAssembler.evictOld 100).frames,
        kv ∈ overfullAssembler.frames.filter
          (fun kv => 100 - overfullAssembler.max_age ≤ kv.2.last_update)) ∧
      ∀ r ∈ overfullAssembler.frames.filter
          (fun kv => 100 - overfullAssembler.max_age ≤ kv.2.last_update),
        (overfullAssembler.evictOld 100).frames.lookup r.1 = none →
        ∀ kv ∈ (overfullAssembler.evictOld 100).frames,
          r.2.last_update ≤ kv.2.last_update)) :=
  ⟨⟨⟨by decide, by decide, by decide, by decide, by decide, by decide⟩,
    C7_stale_and_capacity_eviction.1 staleAssembler 3000
      (VideoPacket.mk { hdrA with frame_id := 2, total_fragments := 2 } [7])
      1 staleAsm (by decide) (by decide) (by decide) (by decide) (by decide)
      (by decide)⟩,
   ⟨⟨by decide, by decide⟩,
    C7_stale_and_capacity_eviction.2 overfullAssembler 100
      (by decide) (by decide)⟩⟩

/-! ## Congestion controller (crates/net-transport/src/congestion.rs)

`bitrate_kbps` is `u32`, `fps` and `quality` are `u8`; all are modelled
as `Nat` holding the machine value.  The `f64` rate factors are fixed
at the default configuration (`decrease_rate = 0.2`,
`increase_rate = 0.05`, and the constants `0.8`, `0.9`): for every
in-range integer input the rounded `f64` products truncate to exactly
`⌊x·4/5⌋`, `⌊x·21/20⌋`, `⌊x·9/10⌋`, so the truncating casts are
modelled as exact `Nat` floor divisions (`as u32` on the `×1.05`
product saturates, hence the `2^32 − 1` cap). -/

/-- `EncodingParams` in congestion.rs. -/
structure EncodingParams where
  bitrate_kbps : Nat
  fps : Nat
  quality : Nat
deriving DecidableEq, Repr

/-- `CongestionConfig` in congestion.rs (the two `f64` rates are fixed
at their defaults, see the section comment). -/
structure CongestionConfig where
  min_bitrate_kbps : Nat
  max_bitrate_kbps : Nat
  initial_bitrate_kbps : Nat
  target_rtt_ms : Nat
  rtt_threshold_ms : Nat
  min_fps : Nat
  max_fps : Nat
deriving DecidableEq, Repr

/-- `CongestionConfig::default`. -/
def CongestionConfig.default : CongestionConfig :=
  { min_bitrate_kbps := 500, max_bitrate_kbps := 10000,
    initial_bitrate_kbps := 3000, target_rtt_ms := 50,
    rtt_threshold_ms := 100, min_fps := 10, max_fps := 60 }

/-- `CongestionController` state.  The smoothed RTT is carried as its
whole-millisecond value (`smoothed_rtt.as_millis() as u32`), which is
all `adjust_params` reads. -/
structure CongestionController where
  config : CongestionConfig
  params : EncodingParams
  srtt_ms : Nat
  last_adjustment : Nat
deriving DecidableEq, Repr

/-- `CongestionController::new` at creation time `now`. -/
def CongestionController.new (cfg : CongestionConfig) (now : Nat) :
    CongestionController :=
  { config := cfg,
    params := { bitrate_kbps := cfg.initial_bitrate_kbps, fps := 30,
                quality := 70 },
    srtt_ms := 50, last_adjustment := now }

/-- The congested branch of `adjust_params` (`rtt_ms > threshold`):
reduce the bitrate by `decrease_rate = 0.2` flooring at the minimum; if
at the floor and above `min_fps`, scale the fps by 0.8 flooring at
`min_fps`; scale the quality by 0.9 flooring at 30. -/
def congestedStep (cfg : CongestionConfig) (p : EncodingParams) :
    EncodingParams :=
  let b2 := max (p.bitrate_kbps * 4 / 5) cfg.min_bitrate_kbps
  { bitrate_kbps := b2,
    fps := if b2 = cfg.min_bitrate_kbps ∧ cfg.min_fps < p.fps then
        max (p.fps * 4 / 5) cfg.min_fps
      else p.fps,
    quality := max (p.quality * 9 / 10) 30 }

/-- The increase branch of `adjust_params` (`rtt_ms < target`):
raise the bitrate by `increase_rate = 0.05` (saturating `u32` cast)
capping at the maximum; with bitrate headroom and below `max_fps`, bump
the fps by one; bump the quality by two capping at 100. -/
def increaseStep (cfg : CongestionConfig) (p : EncodingParams) :
    EncodingParams :=
  let b2 := min (min (p.bitrate_kbps * 21 / 20) (2 ^ 32 - 1))
    cfg.max_bitrate_kbps
  { bitrate_kbps := b2,
    fps := if b2 < cfg.max_bitrate_kbps ∧ p.fps < cfg.max_fps then
        min (p.fps + 1) cfg.max_fps
      else p.fps,
    quality := min ((p.quality + 2) % 2 ^ 8) 100 }

/-- `CongestionController::adjust_params`: rate-limited to one
adjustment per 500 ms; compares the whole-millisecond smoothed RTT with
the threshold and target. -/
def adjustParams (st : CongestionController) (now : Nat) :
    CongestionController :=
  if now - st.last_adjustment < 500 then st
  else
    let st1 := { st with last_adjustment := now }
    if st1.config.rtt_threshold_ms < st1.srtt_ms then
      { st1 with params := congestedStep st1.config st1.params }
    else if st1.srtt_ms < st1.config.target_rtt_ms then
      { st1 with params := increaseStep st1.config st1.params }
    else st1

/-- `CongestionController::record_rtt`: the `f64` EMA update of the
smoothed RTT is not modelled arithmetically; the resulting smoothed RTT
in whole milliseconds is supplied as the oracle input `srtt'`.  After
updating it, `adjust_params` runs. -/
def recordRtt (st : CongestionController) (now srtt' : Nat) :
    CongestionController :=
  adjustParams { st with srtt_ms := srtt' } now

/-- Rust's `Ord::clamp` on integers. -/
def rustClamp (v lo hi : Nat) : Nat :=
  if v < lo then lo else if hi < v then hi else v

/-- `CongestionController::set_bitrate`. -/
def setBitrate (st : CongestionController) (v : Nat) : CongestionController :=
  { st with params := { st.params with
      bitrate_kbps := rustClamp v st.config.min_bitrate_kbps
        st.config.max_bitrate_kbps } }

/-- `CongestionController::set_fps`. -/
def setFps (st : CongestionController) (v : Nat) : CongestionController :=
  { st with params := { st.params with
      fps := rustClamp v st.config.min_fps st.config.max_fps } }

/-- C3 (amended): whenever `record_rtt` runs its adjustment (at least
500 ms since the last one) and the smoothed RTT in whole milliseconds
exceeds `rtt_threshold_ms`, the bitrate becomes
`⌊bitrate·(1−decrease_rate)⌋` floored at `min_bitrate_kbps`; if the
resulting bitrate equals `min_bitrate_kbps` and `fps > min_fps`, the
fps becomes `⌊fps·0.8⌋` **floored at `min_fps`**; and the quality
becomes `⌊quality·0.9⌋` floored at 30. -/
theorem C3_congested_adjustment (st : CongestionController) (now srtt' : Nat)
    (hgate : 500 ≤ now - st.last_adjustment)
    (hrtt : st.config.rtt_threshold_ms < srtt') :
    (recordRtt st now srtt').params.bitrate_kbps =
      max (st.params.bitrate_kbps * 4 / 5) st.config.min_bitrate_kbps ∧
    (recordRtt st now srtt').params.fps =
      (if max (st.params.bitrate_kbps * 4 / 5) st.config.min_bitrate_kbps =
          st.config.min_bitrate_kbps ∧ st.config.min_fps < st.params.fps then
        max (st.params.fps * 4 / 5) st.config.min_fps
      else st.params.fps) ∧
    (recordRtt st now srtt').params.quality =
      max (st.params.quality * 9 / 10) 30 := by
  rw [recordRtt, adjustParams]
  rw [if_neg (by simp only []; omega)]
  rw [if_pos (by simpa using hrtt)]
  simp [congestedStep]

/-- A controller at the minimum bitrate with `fps = 11` under the
default configuration. -/
def c3Controller : CongestionController :=
  { config := CongestionConfig.default,
    params := { bitrate_kbps := 500, fps := 11, quality := 70 },
    srtt_ms := 50, last_adjustment := 0 }

/-- Counterexample to C3 as stated: with `fps = 11`, `min_fps = 10` and
bitrate at the floor, the code sets `fps` to
`max(⌊11·0.8⌋, min_fps) = 10`, not to `⌊11·0.8⌋ = 8` as the claim
says. -/
theorem C3_counterexample :
    ¬ (∀ (st : CongestionController) (now srtt' : Nat),
        500 ≤ now - st.last_adjustment →
        st.config.rtt_threshold_ms < srtt' →
        (recordRtt st now srtt').params.fps =
          (if max (st.params.bitrate_kbps * 4 / 5) st.config.min_bitrate_kbps =
              st.config.min_bitrate_kbps ∧
              st.config.min_fps < st.params.fps then
            st.params.fps * 4 / 5
          else st.params.fps)) := by
  intro hall
  have h := hall c3Controller 500 200 (by decide) (by decide)
  exact absurd h (by decide)

/-- Witness for C3 at `c3Controller`, adjusting at time 500 with a
200 ms smoothed RTT. -/
theorem C3_congested_adjustment_witness :
    (500 ≤ 500 - c3Controller.last_adjustment ∧
      c3Controller.config.rtt_threshold_ms < 200) ∧
    ((recordRtt c3Controller 500 200).params.bitrate_kbps =
      max (c3Controller.params.bitrate_kbps * 4 / 5)
        c3Controller.config.min_bitrate_kbps ∧
    (recordRtt c3Controller 500 200).params.fps =
      (if max (c3Controller.params.bitrate_kbps * 4 / 5)
          c3Controller.config.min_bitrate_kbps =
          c3Controller.config.min_bitrate_kbps ∧
          c3Controller.config.min_fps < c3Controller.params.fps then
        max (c3Controller.params.fps * 4 / 5) c3Controller.config.min_fps
      else c3Controller.params.fps) ∧
    (recordRtt c3Controller 500 200).params.quality =
      max (c3Controller.params.quality * 9 / 10) 30) :=
  ⟨⟨by decide, by decide⟩,
    C3_congested_adjustment c3Controller 500 200 (by decide) (by decide)⟩

/-- The bounds invariant C10 asserts on `current_params`. -/
def paramsInv (cfg : CongestionConfig) (p : EncodingParams) : Prop :=
  cfg.min_bitrate_kbps ≤ p.bitrate_kbps ∧
  p.bitrate_kbps ≤ cfg.max_bitrate_kbps ∧
  cfg.min_fps ≤ p.fps ∧ p.fps ≤ cfg.max_fps

/-- Well-formedness of a `CongestionConfig` as it exists in the Rust
program: ordered bounds and `u32`-representable bitrates. -/
def configWf (cfg : CongestionConfig) : Prop :=
  cfg.min_bitrate_kbps ≤ cfg.max_bitrate_kbps ∧
  cfg.min_fps ≤ cfg.max_fps ∧
  cfg.max_bitrate_kbps < 2 ^ 32

theorem congestedStep_inv (cfg : CongestionConfig) (p : EncodingParams)
    (hwf : configWf cfg) (hp : paramsInv cfg p) :
    paramsInv cfg (congestedStep cfg p) := by
  obtain ⟨hbm, hfm, _⟩ := hwf
  obtain ⟨h1, h2, h3, h4⟩ := hp
  have hb : p.bitrate_kbps * 4 / 5 ≤ p.bitrate_kbps :=
    Nat.div_le_of_le_mul (by omega)
  have hf : p.fps * 4 / 5 ≤ p.fps := Nat.div_le_of_le_mul (by omega)
  refine ⟨by simp [congestedStep], ?_, ?_, ?_⟩
  · show max (p.bitrate_kbps * 4 / 5) cfg.min_bitrate_kbps ≤ cfg.max_bitrate_kbps
    omega
  · simp only [congestedStep]
    split
    · omega
    · exact h3
  · simp only [congestedStep]
    split
    · omega
    · exact h4

theorem increaseStep_inv (cfg : CongestionConfig) (p : EncodingParams)
    (hwf : configWf cfg) (hp : paramsInv cfg p) :
    paramsInv cfg (increaseStep cfg p) := by
  obtain ⟨hbm, hfm, h32⟩ := hwf
  obtain ⟨h1, h2, h3, h4⟩ := hp
  have hb : p.bitrate_kbps ≤ p.bitrate_kbps * 21 / 20 := by
    have h20 : p.bitrate_kbps = p.bitrate_kbps * 20 / 20 := by
      rw [Nat.mul_div_cancel _ (by omega)]
    rw [h20]
    exact Nat.div_le_div_right (by omega)
  refine ⟨?_, by simp [increaseStep], ?_, ?_⟩
  · simp only [increaseStep]
    simp only [le_min_iff]
    omega
  · simp only [increaseStep]
    split
    · omega
    · exact h3
  · simp only [increaseStep]
    split
    · omega
    · exact h4

theorem rustClamp_bounds (v lo hi : Nat) (h : lo ≤ hi) :
    lo ≤ rustClamp v lo hi ∧ rustClamp v lo hi ≤ hi := by
  rw [rustClamp]
  split
  · omega
  · split <;> omega

theorem adjustParams_config (st : CongestionController) (now : Nat) :
    (adjustParams st now).config = st.config := by
  rw [adjustParams]
  split
  · rfl
  · dsimp only
    split
    · rfl
    · split <;> rfl

theorem adjustParams_inv (st : CongestionController) (now : Nat)
    (hwf : configWf st.config) (hp : paramsInv st.config st.params) :
    paramsInv st.config (adjustParams st now).params := by
  rw [adjustParams]
  split
  · exact hp
  · dsimp only
    split
    · exact congestedStep_inv st.config st.params hwf hp
    · split
      · exact increaseStep_inv st.config st.params hwf hp
      · exact hp

/-- An operation on the live controller: an RTT sample (with the
resulting whole-millisecond smoothed RTT as oracle), or one of the
manual overrides. -/
inductive CCOp
  | rtt (now srtt : Nat)
  | setB (v : Nat)
  | setF (v : Nat)

/-- Apply one operation. -/
def applyOp (st : CongestionController) : CCOp → CongestionController
  | .rtt now srtt => recordRtt st now srtt
  | .setB v => setBitrate st v
  | .setF v => setFps st v

/-- Apply a sequence of operations. -/
def applyOps (st : CongestionController) (ops : List CCOp) :
    CongestionController :=
  ops.foldl applyOp st

theorem applyOp_config (st : CongestionController) (op : CCOp) :
    (applyOp st op).config = st.config := by
  cases op with
  | rtt now srtt => exact adjustParams_config _ _
  | setB v => rfl
  | setF v => rfl

theorem applyOp_inv (st : CongestionController) (op : CCOp)
    (hwf : configWf st.config) (hp : paramsInv st.config st.params) :
    paramsInv st.config (applyOp st op).params := by
  cases op with
  | rtt now srtt =>
    exact adjustParams_inv { st with srtt_ms := srtt } now hwf hp
  | setB v =>
    obtain ⟨h1, h2, h3, h4⟩ := hp
    have := rustClamp_bounds v st.config.min_bitrate_kbps
      st.config.max_bitrate_kbps hwf.1
    exact ⟨this.1, this.2, h3, h4⟩
  | setF v =>
    obtain ⟨h1, h2, h3, h4⟩ := hp
    have := rustClamp_bounds v st.config.min_fps st.config.max_fps hwf.2.1
    exact ⟨h1, h2, this.1, this.2⟩

theorem applyOps_inv :
    ∀ (ops : List CCOp) (st : CongestionController),
      configWf st.config → paramsInv st.config st.params →
      (applyOps st ops).config = st.config ∧
      paramsInv st.config (applyOps st ops).params := by
  intro ops
  induction ops with
  | nil => intro st _ hp; exact ⟨rfl, hp⟩
  | cons op ops ih =>
    intro st hwf hp
    have hcfg : (applyOp st op).config = st.config := applyOp_config st op
    have hstep : paramsInv st.config (applyOp st op).params :=
      applyOp_inv st op hwf hp
    have := ih (applyOp st op) (by rw [hcfg]; exact hwf) (by rw [hcfg]; exact hstep)
    rw [hcfg] at this
    exact this

/-- C10: from a freshly created controller whose configuration has
ordered, `u32`-representable bounds with
`min_bitrate ≤ initial_bitrate ≤ max_bitrate` and
`min_fps ≤ 30 ≤ max_fps`, every sequence of `record_rtt`,
`set_bitrate` and `set_fps` calls keeps `current_params` within
`[min_bitrate, max_bitrate]` and `[min_fps, max_fps]`. -/
theorem C10_params_invariant (cfg : CongestionConfig) (now0 : Nat)
    (ops : List CCOp)
    (h1 : cfg.min_bitrate_kbps ≤ cfg.initial_bitrate_kbps)
    (h2 : cfg.initial_bitrate_kbps ≤ cfg.max_bitrate_kbps)
    (h3 : cfg.min_fps ≤ 30) (h4 : 30 ≤ cfg.max_fps)
    (h5 : cfg.max_bitrate_kbps < 2 ^ 32) :
    cfg.min_bitrate_kbps ≤
      (applyOps (CongestionController.new cfg now0) ops).params.bitrate_kbps ∧
    (applyOps (CongestionController.new cfg now0) ops).params.bitrate_kbps ≤
      cfg.max_bitrate_kbps ∧
    cfg.min_fps ≤ (applyOps (CongestionController.new cfg now0) ops).params.fps ∧
    (applyOps (CongestionController.new cfg now0) ops).params.fps ≤
      cfg.max_fps := by
  have hwf : configWf cfg := ⟨by omega, by omega, h5⟩
  have h := applyOps_inv ops (CongestionController.new cfg now0) hwf
    ⟨h1, h2, h3, h4⟩
  exact h.2

/-- Witness for C10: the default configuration, three operations. -/
theorem C10_params_invariant_witness :
    (CongestionConfig.default.min_bitrate_kbps ≤
        CongestionConfig.default.initial_bitrate_kbps ∧
      CongestionConfig.default.initial_bitrate_kbps ≤
        CongestionConfig.default.max_bitrate_kbps ∧
      CongestionConfig.default.min_fps ≤ 30 ∧
      30 ≤ CongestionConfig.default.max_fps ∧
      CongestionConfig.default.max_bitrate_kbps < 2 ^ 32) ∧
    (CongestionConfig.default.min_bitrate_kbps ≤
      (applyOps (CongestionController.new CongestionConfig.default 0)
        [.rtt 700 200, .setB 99999, .setF 1]).params.bitrate_kbps ∧
    (applyOps (CongestionController.new CongestionConfig.default 0)
        [.rtt 700 200, .setB 99999, .setF 1]).params.bitrate_kbps ≤
      CongestionConfig.default.max_bitrate_kbps ∧
    CongestionConfig.default.min_fps ≤
      (applyOps (CongestionController.new CongestionConfig.default 0)
        [.rtt 700 200, .setB 99999, .setF 1]).params.fps ∧
    (applyOps (CongestionController.new CongestionConfig.default 0)
        [.rtt 700 200, .setB 99999, .setF 1]).params.fps ≤
      CongestionConfig.default.max_fps) :=
  ⟨⟨by decide, by decide, by decide, by decide, by decide⟩,
    C10_params_invariant CongestionConfig.default 0
      [.rtt 700 200, .setB 99999, .setF 1]
      (by decide) (by decide) (by decide) (by decide) (by decide)⟩

/-! ## PeerId display and parse (crates/shared-protocol/src/session.rs)

Rust strings are modelled as `List Char`.  `PeerId` wraps a 128-bit
UUID, modelled as its 32 hex nibbles. -/

/-- A `Uuid`: 32 hex nibbles. -/
def Uuid := { l : List (Fin 16) // l.length = 32 }

instance : DecidableEq Uuid :=
  inferInstanceAs (DecidableEq { l : List (Fin 16) // l.length = 32 })

/-- `PeerId` in session.rs: a newtype over `Uuid`. -/
structure PeerId where
  uuid : Uuid
deriving DecidableEq

/-- The lowercase hex digit for a nibble. -/
def hexChar (d : Fin 16) : Char :=
  if d.val < 10 then Char.ofNat (48 + d.val) else Char.ofNat (87 + d.val)

/-- Case-insensitive hex digit value. -/
def hexVal (c : Char) : Option (Fin 16) :=
  if h : 48 ≤ c.toNat ∧ c.toNat ≤ 57 then some ⟨c.toNat - 48, by omega⟩
  else if h : 97 ≤ c.toNat ∧ c.toNat ≤ 102 then some ⟨c.toNat - 87, by omega⟩
  else if h : 65 ≤ c.toNat ∧ c.toNat ≤ 70 then some ⟨c.toNat - 55, by omega⟩
  else none

/-- Parse a string of hex digits. -/
def parseHexList : List Char → Option (List (Fin 16))
  | [] => some []
  | c :: cs =>
    match hexVal c, parseHexList cs with
    | some d, some ds => some (d :: ds)
    | _, _ => none

/-- `uuid::Uuid::to_string`: the canonical lowercase hyphenated form
(8-4-4-4-12). -/
def Uuid.render (u : Uuid) : List Char :=
  let ns := u.val.map hexChar
  ns.take 8 ++ ('-' :: ((ns.drop 8).take 4 ++ ('-' :: ((ns.drop 12).take 4 ++
    ('-' :: ((ns.drop 16).take 4 ++ ('-' :: ns.drop 20)))))))

/-- Modelled from the spec: the strict "grouped" parser
(`uuid::Uuid::parse_str` of the external `uuid` crate, which is not
part of this repository).  It accepts the 32-hex "simple" form and the
hyphen-grouped 8-4-4-4-12 form, case-insensitively.  (The crate also
accepts braced and URN decorations of the same digit string; any such
parse yields the same nibbles, and `from_display_string`'s lenient
fallback below reaches the same result when this model rejects them.) -/
def Uuid.parse (s : List Char) : Option Uuid :=
  if s.length = 32 then
    match parseHexList s with
    | some ds => if hl : ds.length = 32 then some ⟨ds, hl⟩ else none
    | none => none
  else if s.length = 36 ∧ s[8]? = some '-' ∧ s[13]? = some '-' ∧
      s[18]? = some '-' ∧ s[23]? = some '-' then
    match parseHexList (s.take 8 ++ (s.drop 9).take 4 ++ (s.drop 14).take 4 ++
        (s.drop 19).take 4 ++ s.drop 24) with
    | some ds => if hl : ds.length = 32 then some ⟨ds, hl⟩ else none
    | none => none
  else none

/-- Rust `char::is_whitespace`: the Unicode `White_Space` property,
which consists of exactly these 25 code points (U+0009..U+000D, U+0020,
U+0085, U+00A0, U+1680, U+2000..U+200A, U+2028, U+2029, U+202F,
U+205F, U+3000). -/
def rustIsWhitespace (c : Char) : Bool :=
  (9 ≤ c.toNat && c.toNat ≤ 13) || c.toNat == 32 || c.toNat == 133 ||
  c.toNat == 160 || c.toNat == 5760 ||
  (8192 ≤ c.toNat && c.toNat ≤ 8202) || c.toNat == 8232 ||
  c.toNat == 8233 || c.toNat == 8239 || c.toNat == 8287 ||
  c.toNat == 12288

/-- Rust `str::trim`: drop `char::is_whitespace` characters from both
ends. -/
def trimChars (s : List Char) : List Char :=
  ((s.dropWhile rustIsWhitespace).reverse.dropWhile rustIsWhitespace).reverse

/-- `isAlnum` is a valid model of Rust `char::is_alphanumeric`.  That
function consults the Unicode `Alphabetic` and `Nd`/`Nl`/`No` tables of
the Rust standard library, which are not part of this repository, so it
is kept as a parameter; on the ASCII range (`c.toNat < 128`) it is
documented to agree with `is_ascii_alphanumeric`, i.e. with `[0-9A-Za-z]`,
which is Lean's `Char.isAlphanum`.  Every theorem below quantifies over
all predicates with this property, so it holds in particular for the
real Unicode predicate. -/
def modelsRustAlnum (isAlnum : Char → Bool) : Prop :=
  ∀ c : Char, c.toNat < 128 → isAlnum c = c.isAlphanum

/-- `PeerId::to_display_string`: the uppercased canonical UUID form. -/
def PeerId.to_display_string (p : PeerId) : List Char :=
  p.uuid.render.map Char.toUpper

/-- `PeerId::from_display_string`: strict parse of the trimmed input,
else keep only the characters that `char::is_alphanumeric` (the
parameter `isAlnum`, see `modelsRustAlnum`) accepts, require 32
characters, lowercase and parse. -/
def PeerId.from_display_string (isAlnum : Char → Bool) (s : List Char) :
    Option PeerId :=
  let trimmed := trimChars s
  match Uuid.parse trimmed with
  | some u => some ⟨u⟩
  | none =>
    let cleaned := trimmed.filter isAlnum
    if cleaned.length ≠ 32 then none
    else (Uuid.parse (cleaned.map Char.toLower)).map PeerId.mk

/-- `s` arises from `t` by inserting, at arbitrary positions,
characters that `isAlnum` classifies as non-alphanumeric. -/
inductive InsertNonAlnum (isAlnum : Char → Bool) :
    List Char → List Char → Prop
  | nil : InsertNonAlnum isAlnum [] []
  | keep (c : Char) {t s : List Char} :
      InsertNonAlnum isAlnum t s → InsertNonAlnum isAlnum (c :: t) (c :: s)
  | ins (c : Char) {t s : List Char} : isAlnum c = false →
      InsertNonAlnum isAlnum t s → InsertNonAlnum isAlnum t (c :: s)

theorem insertNonAlnum_self (isAlnum : Char → Bool) :
    ∀ t : List Char, InsertNonAlnum isAlnum t t
  | [] => .nil
  | c :: t => .keep c (insertNonAlnum_self isAlnum t)

theorem InsertNonAlnum.sublist {isAlnum : Char → Bool} {t s : List Char}
    (h : InsertNonAlnum isAlnum t s) : t.Sublist s := by
  induction h with
  | nil => exact List.Sublist.refl []
  | keep c _ ih => exact ih.cons₂ c
  | ins c _ _ ih => exact ih.cons c

theorem InsertNonAlnum.filter_alnum {isAlnum : Char → Bool}
    {t s : List Char} (h : InsertNonAlnum isAlnum t s) :
    s.filter isAlnum = t.filter isAlnum := by
  induction h with
  | nil => rfl
  | keep c _ ih => simp only [List.filter_cons, ih]
  | ins c hf _ ih =>
    simp only [List.filter_cons, ih, hf]
    rw [if_neg (by simp)]

theorem insertNonAlnum_dropWhile {isAlnum q : Char → Bool}
    {t s : List Char} (h : InsertNonAlnum isAlnum t s) :
    (∀ c ∈ t, q c = false) → InsertNonAlnum isAlnum t (s.dropWhile q) := by
  induction h with
  | nil => intro _; exact .nil
  | keep c h _ =>
    intro ht
    rw [List.dropWhile_cons, ht c (by simp)]
    simp only [Bool.false_eq_true, if_false]
    exact .keep c h
  | ins c hc h ih =>
    intro ht
    rw [List.dropWhile_cons]
    cases hq : q c with
    | true =>
      simp only [if_true]
      exact ih ht
    | false =>
      simp only [Bool.false_eq_true, if_false]
      exact .ins c hc h

theorem insertNonAlnum_snoc_ins {isAlnum : Char → Bool} {t s : List Char}
    (h : InsertNonAlnum isAlnum t s) (c : Char) (hc : isAlnum c = false) :
    InsertNonAlnum isAlnum t (s ++ [c]) := by
  induction h with
  | nil => exact .ins c hc .nil
  | keep d _ ih => exact .keep d ih
  | ins d hd _ ih => exact .ins d hd ih

theorem insertNonAlnum_snoc_keep {isAlnum : Char → Bool} {t s : List Char}
    (h : InsertNonAlnum isAlnum t s) (c : Char) :
    InsertNonAlnum isAlnum (t ++ [c]) (s ++ [c]) := by
  induction h with
  | nil => exact .keep c .nil
  | keep d _ ih => exact .keep d ih
  | ins d hd _ ih => exact .ins d hd ih

theorem insertNonAlnum_reverse {isAlnum : Char → Bool} {t s : List Char}
    (h : InsertNonAlnum isAlnum t s) :
    InsertNonAlnum isAlnum t.reverse s.reverse := by
  induction h with
  | nil => exact .nil
  | keep c _ ih =>
    rw [List.reverse_cons, List.reverse_cons]
    exact insertNonAlnum_snoc_keep ih c
  | ins c hc _ ih =>
    rw [List.reverse_cons]
    exact insertNonAlnum_snoc_ins ih c hc

theorem insertNonAlnum_trimChars {isAlnum : Char → Bool} {t s : List Char}
    (h : InsertNonAlnum isAlnum t s)
    (ht : ∀ c ∈ t, rustIsWhitespace c = false) :
    InsertNonAlnum isAlnum t (trimChars s) := by
  have h1 := insertNonAlnum_dropWhile h ht
  have h2 := insertNonAlnum_reverse h1
  have h3 := insertNonAlnum_dropWhile h2
    (fun c hc => ht c (List.mem_reverse.mp hc))
  have h4 := insertNonAlnum_reverse h3
  rw [List.reverse_reverse] at h4
  rw [trimChars]
  exact h4

theorem dropWhile_eq_self_of_forall {p : Char → Bool} :
    ∀ {l : List Char}, (∀ c ∈ l, p c = false) → l.dropWhile p = l
  | [], _ => rfl
  | c :: l, h => by
    rw [List.dropWhile_cons, h c (by simp)]
    simp

theorem trimChars_eq_self {l : List Char}
    (h : ∀ c ∈ l, rustIsWhitespace c = false) : trimChars l = l := by
  rw [trimChars, dropWhile_eq_self_of_forall h,
    dropWhile_eq_self_of_forall (fun c hc => h c (List.mem_reverse.mp hc)),
    List.reverse_reverse]

theorem hexVal_toUpper_hexChar : ∀ d : Fin 16,
    hexVal (Char.toUpper (hexChar d)) = some d := by decide

theorem hexVal_hexChar : ∀ d : Fin 16, hexVal (hexChar d) = some d := by decide

theorem hexChar_upper_alnum : ∀ d : Fin 16,
    (Char.toUpper (hexChar d)).isAlphanum = true := by decide

theorem hexChar_upper_not_ws : ∀ d : Fin 16,
    rustIsWhitespace (Char.toUpper (hexChar d)) = false := by decide

theorem hexChar_upper_ascii : ∀ d : Fin 16,
    (Char.toUpper (hexChar d)).toNat < 128 := by decide

theorem toLower_toUpper_hexChar : ∀ d : Fin 16,
    Char.toLower (Char.toUpper (hexChar d)) = hexChar d := by decide

theorem parseHexList_map (g : Fin 16 → Char) (hg : ∀ d, hexVal (g d) = some d) :
    ∀ l : List (Fin 16), parseHexList (l.map g) = some l := by
  intro l
  induction l with
  | nil => rfl
  | cons d l ih =>
    simp only [List.map_cons, parseHexList, hg d, ih]

/-- The uppercase nibble rendering of a UUID. -/
def nsU (u : Uuid) : List Char :=
  u.val.map (fun d => Char.toUpper (hexChar d))

theorem length_nsU (u : Uuid) : (nsU u).length = 32 := by
  rw [nsU, List.length_map, u.property]

theorem display_eq (u : Uuid) : PeerId.to_display_string ⟨u⟩ =
    (nsU u).take 8 ++ ('-' :: (((nsU u).drop 8).take 4 ++
      ('-' :: (((nsU u).drop 12).take 4 ++ ('-' :: (((nsU u).drop 16).take 4 ++
        ('-' :: (nsU u).drop 20))))))) := by
  simp only [PeerId.to_display_string, Uuid.render, nsU, List.map_append,
    List.map_cons, List.map_take, List.map_drop, List.map_map]
  rfl

theorem parse_grouped (A B C E F : List Char) (hA : A.length = 8)
    (hB : B.length = 4) (hC : C.length = 4) (hE : E.length = 4)
    (hF : F.length = 12) :
    Uuid.parse (A ++ ('-' :: (B ++ ('-' :: (C ++ ('-' :: (E ++
        ('-' :: F)))))))) =
      match parseHexList (A ++ (B ++ (C ++ (E ++ F)))) with
      | some ds => if hl : ds.length = 32 then some ⟨ds, hl⟩ else none
      | none => none := by
  set R3 := E ++ ('-' :: F) with hR3
  set R2 := C ++ ('-' :: R3) with hR2
  set R1 := B ++ ('-' :: R2) with hR1
  set s := A ++ ('-' :: R1) with hs
  have hR3len : R3.length = 17 := by simp [hR3, hE, hF]
  have hR2len : R2.length = 22 := by simp [hR2, hC, hR3len]
  have hR1len : R1.length = 27 := by simp [hR1, hB, hR2len]
  have hslen : s.length = 36 := by simp [hs, hA, hR1len]
  have hd8 : s.drop 8 = '-' :: R1 := List.drop_left' hA
  have hd9 : s.drop 9 = R1 := by
    have h1 : s.drop 9 = (s.drop 8).drop 1 := by
      rw [List.drop_drop]
    rw [h1, hd8, List.drop_one, List.tail_cons]
  have hd13 : s.drop 13 = '-' :: R2 := by
    have h1 : s.drop 13 = (s.drop 9).drop 4 := by
      rw [List.drop_drop]
    rw [h1, hd9, hR1]
    exact List.drop_left' hB
  have hd14 : s.drop 14 = R2 := by
    have h1 : s.drop 14 = (s.drop 13).drop 1 := by
      rw [List.drop_drop]
    rw [h1, hd13, List.drop_one, List.tail_cons]
  have hd18 : s.drop 18 = '-' :: R3 := by
    have h1 : s.drop 18 = (s.drop 14).drop 4 := by
      rw [List.drop_drop]
    rw [h1, hd14, hR2]
    exact List.drop_left' hC
  have hd19 : s.drop 19 = R3 := by
    have h1 : s.drop 19 = (s.drop 18).drop 1 := by
      rw [List.drop_drop]
    rw [h1, hd18, List.drop_one, List.tail_cons]
  have hd23 : s.drop 23 = '-' :: F := by
    have h1 : s.drop 23 = (s.drop 19).drop 4 := by
      rw [List.drop_drop]
    rw [h1, hd19, hR3]
    exact List.drop_left' hE
  have hd24 : s.drop 24 = F := by
    have h1 : s.drop 24 = (s.drop 23).drop 1 := by
      rw [List.drop_drop]
    rw [h1, hd23, List.drop_one, List.tail_cons]
  have hg8 : s[8]? = some '-' := by
    have h1 : s[8]? = (s.drop 8)[0]? := by
      rw [List.getElem?_drop]
    rw [h1, hd8]
    simp
  have hg13 : s[13]? = some '-' := by
    have h1 : s[13]? = (s.drop 13)[0]? := by
      rw [List.getElem?_drop]
    rw [h1, hd13]
    simp
  have hg18 : s[18]? = some '-' := by
    have h1 : s[18]? = (s.drop 18)[0]? := by
      rw [List.getElem?_drop]
    rw [h1, hd18]
    simp
  have hg23 : s[23]? = some '-' := by
    have h1 : s[23]? = (s.drop 23)[0]? := by
      rw [List.getElem?_drop]
    rw [h1, hd23]
    simp
  have ht8 : s.take 8 = A := List.take_left' hA
  have ht9 : (s.drop 9).take 4 = B := by rw [hd9, hR1]; exact List.take_left' hB
  have ht14 : (s.drop 14).take 4 = C := by
    rw [hd14, hR2]; exact List.take_left' hC
  have ht19 : (s.drop 19).take 4 = E := by
    rw [hd19, hR3]; exact List.take_left' hE
  rw [Uuid.parse]
  rw [if_neg (by omega)]
  rw [if_pos ⟨hslen, hg8, hg13, hg18, hg23⟩]
  rw [ht8, ht9, ht14, ht19, hd24]
  simp [List.append_assoc]

theorem recompose32 (l : List Char) :
    l.take 8 ++ ((l.drop 8).take 4 ++ ((l.drop 12).take 4 ++
      ((l.drop 16).take 4 ++ l.drop 20))) = l := by
  have h8 : (l.drop 8).drop 4 = l.drop 12 := by rw [List.drop_drop]
  have h12 : (l.drop 12).drop 4 = l.drop 16 := by rw [List.drop_drop]
  have h16 : (l.drop 16).drop 4 = l.drop 20 := by rw [List.drop_drop]
  conv_rhs => rw [← List.take_append_drop 8 l,
    ← List.take_append_drop 4 (l.drop 8), h8,
    ← List.take_append_drop 4 (l.drop 12), h12,
    ← List.take_append_drop 4 (l.drop 16), h16]

theorem parse_display (u : Uuid) :
    Uuid.parse (PeerId.to_display_string ⟨u⟩) = some u := by
  rw [display_eq]
  rw [parse_grouped _ _ _ _ _
    (by simp [length_nsU]) (by simp [length_nsU]) (by simp [length_nsU])
    (by simp [length_nsU]) (by simp [length_nsU])]
  rw [recompose32, nsU,
    parseHexList_map _ hexVal_toUpper_hexChar]
  show (if hl : (u.val).length = 32 then some (⟨u.val, hl⟩ : Uuid) else none) =
    some u
  rw [dif_pos u.property]
  rfl

theorem display_not_ws (u : Uuid) :
    ∀ c ∈ PeerId.to_display_string ⟨u⟩, rustIsWhitespace c = false := by
  intro c hc
  have hmem : c = '-' ∨ c ∈ nsU u := by
    rw [display_eq] at hc
    simp only [List.mem_append, List.mem_cons] at hc
    rcases hc with h | h | h
    · exact Or.inr (List.take_subset _ _ h)
    · exact Or.inl h
    · rcases h with h | h | h
      · exact Or.inr (List.drop_subset _ _ (List.take_subset _ _ h))
      · exact Or.inl h
      · rcases h with h | h | h
        · exact Or.inr (List.drop_subset _ _ (List.take_subset _ _ h))
        · exact Or.inl h
        · rcases h with h | h | h
          · exact Or.inr (List.drop_subset _ _ (List.take_subset _ _ h))
          · exact Or.inl h
          · exact Or.inr (List.drop_subset _ _ h)
  rcases hmem with h | h
  · subst h
    decide
  · obtain ⟨d, _, rfl⟩ := List.mem_map.mp h
    exact hexChar_upper_not_ws d

theorem display_filter_alnum (isAlnum : Char → Bool)
    (hA : modelsRustAlnum isAlnum) (u : Uuid) :
    (PeerId.to_display_string ⟨u⟩).filter isAlnum = nsU u := by
  have hpart : ∀ (l : List Char), (∀ c ∈ l, isAlnum c = true) →
      l.filter isAlnum = l := fun l h => List.filter_eq_self.mpr h
  have hn : ∀ c ∈ nsU u, isAlnum c = true := by
    intro c hc
    obtain ⟨d, _, rfl⟩ := List.mem_map.mp hc
    rw [hA _ (hexChar_upper_ascii d)]
    exact hexChar_upper_alnum d
  have hh : isAlnum '-' = false := by
    rw [hA '-' (by decide)]
    decide
  rw [display_eq]
  simp only [List.filter_append, List.filter_cons, hh]
  rw [hpart _ (fun c hc => hn c (List.take_subset _ _ hc)),
    hpart _ (fun c hc => hn c (List.drop_subset _ _ (List.take_subset _ _ hc))),
    hpart _ (fun c hc => hn c (List.drop_subset _ _ (List.take_subset _ _ hc))),
    hpart _ (fun c hc => hn c (List.drop_subset _ _ (List.take_subset _ _ hc))),
    hpart _ (fun c hc => hn c (List.drop_subset _ _ hc))]
  simp only [Bool.false_eq_true, if_false]
  exact recompose32 _

theorem parse_simple (u : Uuid) :
    Uuid.parse (u.val.map hexChar) = some u := by
  rw [Uuid.parse, if_pos (by rw [List.length_map, u.property]),
    parseHexList_map _ hexVal_hexChar]
  show (if hl : (u.val).length = 32 then some (⟨u.val, hl⟩ : Uuid) else none) =
    some u
  rw [dif_pos u.property]
  rfl

theorem display_length (u : Uuid) :
    (PeerId.to_display_string ⟨u⟩).length = 36 := by
  rw [display_eq]
  simp [length_nsU]

/-- C8: for every predicate that agrees with Rust's Unicode
`char::is_alphanumeric` on the ASCII range (as the real predicate
does), `from_display_string ∘ to_display_string` is the identity, and
stays so when characters that the predicate classifies as
non-alphanumeric are inserted at arbitrary positions into the display
string. -/
theorem C8_peer_id_roundtrip (isAlnum : Char → Bool)
    (hA : modelsRustAlnum isAlnum) (p : PeerId) (s : List Char)
    (hins : InsertNonAlnum isAlnum (PeerId.to_display_string p) s) :
    PeerId.from_display_string isAlnum (PeerId.to_display_string p) =
      some p ∧
    PeerId.from_display_string isAlnum s = some p := by
  obtain ⟨u⟩ := p
  have hD_ws := display_not_ws u
  constructor
  · simp only [PeerId.from_display_string]
    rw [trimChars_eq_self hD_ws, parse_display]
  · have htrim : InsertNonAlnum isAlnum (PeerId.to_display_string ⟨u⟩)
        (trimChars s) := insertNonAlnum_trimChars hins hD_ws
    have htrim_sub : (PeerId.to_display_string ⟨u⟩).Sublist (trimChars s) :=
      htrim.sublist
    have hge36 : 36 ≤ (trimChars s).length :=
      display_length u ▸ htrim_sub.length_le
    have hfilter : (trimChars s).filter isAlnum = nsU u := by
      rw [htrim.filter_alnum, display_filter_alnum isAlnum hA]
    by_cases h36 : (trimChars s).length = 36
    · have heq : PeerId.to_display_string ⟨u⟩ = trimChars s :=
        htrim_sub.eq_of_length (by rw [display_length, h36])
      simp only [PeerId.from_display_string]
      rw [← heq, parse_display]
    · have hparse_none : Uuid.parse (trimChars s) = none := by
        rw [Uuid.parse, if_neg (by omega)]
        rw [if_neg (fun hc => h36 hc.1)]
      simp only [PeerId.from_display_string]
      rw [hparse_none]
      rw [hfilter]
      rw [if_neg (by simp [length_nsU])]
      have hmap : (nsU u).map Char.toLower = u.val.map hexChar := by
        rw [nsU, List.map_map]
        exact List.map_congr_left (fun d _ => toLower_toUpper_hexChar d)
      rw [hmap, parse_simple]
      rfl

/-- The all-zero peer id. -/
def peerZero : PeerId :=
  ⟨⟨List.replicate 32 0, by simp⟩⟩

/-- Witness for C8 at the instance `Char.isAlphanum` of the predicate
(which trivially satisfies `modelsRustAlnum`): the zero UUID, with a
dot inserted in front of its display string. -/
theorem C8_peer_id_roundtrip_witness :
    modelsRustAlnum Char.isAlphanum ∧
    InsertNonAlnum Char.isAlphanum (PeerId.to_display_string peerZero)
      ('.' :: PeerId.to_display_string peerZero) ∧
    (PeerId.from_display_string Char.isAlphanum
        (PeerId.to_display_string peerZero) = some peerZero ∧
      PeerId.from_display_string Char.isAlphanum
        ('.' :: PeerId.to_display_string peerZero) = some peerZero) :=
  ⟨fun _ _ => rfl,
    InsertNonAlnum.ins '.' (by decide)
      (insertNonAlnum_self Char.isAlphanum
        (PeerId.to_display_string peerZero)),
    C8_peer_id_roundtrip Char.isAlphanum (fun _ _ => rfl) peerZero
      ('.' :: PeerId.to_display_string peerZero)
      (InsertNonAlnum.ins '.' (by decide)
        (insertNonAlnum_self Char.isAlphanum
          (PeerId.to_display_string peerZero)))⟩

/-! ## Signaling broker (apps/signaling-server/src/main.rs)

One step of `handle_websocket`: the broker state, the handling
connection's channel id (`msg_tx`), the connection's local `peer_id`
variable, and one parsed inbound message produce the new state, the new
local `peer_id`, and the list of (channel, message) sends. -/

/-- `IceCandidateType` in shared-protocol/src/session.rs. -/
inductive IceCandidateType
  | Host
  | ServerReflexive
  | PeerReflexive
  | Relay
deriving DecidableEq

/-- `IceCandidate` in shared-protocol/src/session.rs. -/
structure IceCandidate where
  candidate_type : IceCandidateType
  address : List Char
  port : Nat
  priority : Nat
deriving DecidableEq

/-- `SignalingMessage` in shared-protocol/src/session.rs. -/
inductive SignalingMessage
  | Register (peer_id : PeerId)
  | Registered (peer_id : PeerId)
  | Connect (target_peer_id : PeerId)
  | IncomingConnection (from_peer_id : PeerId)
  | Accept (from_peer_id : PeerId)
  | Reject (from_peer_id : PeerId) (reason : List Char)
  | IceCandidate (target_peer_id : PeerId) (candidate : IceCandidate)
  | Connected (peer_id : PeerId)
  | Disconnected (peer_id : PeerId)
  | Error (message : List Char)
  | Ping
  | Pong
deriving DecidableEq

/-- Association-list lookup keyed by `PeerId`. -/
def plookup {β : Type} (k : PeerId) : List (PeerId × β) → Option β
  | [] => none
  | (k', v) :: rest => if k' = k then some v else plookup k rest

/-- `DashMap::insert`: replace in place or append. -/
def pinsert {β : Type} (k : PeerId) (v : β) :
    List (PeerId × β) → List (PeerId × β)
  | [] => [(k, v)]
  | (k', v') :: rest =>
    if k' = k then (k, v) :: rest else (k', v') :: pinsert k v rest

/-- `DashMap::remove` (by key). -/
def premove {β : Type} (k : PeerId) :
    List (PeerId × β) → List (PeerId × β)
  | [] => []
  | (k', v') :: rest => if k' = k then rest else (k', v') :: premove k rest

/-- `pending_connections.entry(target).or_insert_with(Vec::new).push(from)`. -/
def pqueue (k : PeerId) (v : PeerId) :
    List (PeerId × List PeerId) → List (PeerId × List PeerId)
  | [] => [(k, [v])]
  | (k', q) :: rest =>
    if k' = k then (k, q ++ [v]) :: rest else (k', q) :: pqueue k v rest

/-- The broker's shared state (`AppState`): registered peers mapped to
their outbound channel, and queued connection requests. -/
structure BrokerState where
  peers : List (PeerId × Nat)
  pending : List (PeerId × List PeerId)
deriving DecidableEq

/-- One step of the broker's message match in `handle_websocket`. -/
def handleMessage (st : BrokerState) (connId : Nat)
    (registeredAs : Option PeerId) (msg : SignalingMessage) :
    BrokerState × Option PeerId × List (Nat × SignalingMessage) :=
  match msg with
  | .Register id =>
    let st1 : BrokerState := { st with peers := pinsert id connId st.peers }
    match plookup id st1.pending with
    | some waiting =>
      ({ st1 with pending := premove id st1.pending }, some id,
        (connId, .Registered id) ::
          waiting.map (fun fp => (connId, .IncomingConnection fp)))
    | none => (st1, some id, [(connId, .Registered id)])
  | .Connect target =>
    match registeredAs with
    | none => (st, registeredAs, [])
    | some from_id =>
      match plookup target st.peers with
      | some tconn => (st, registeredAs, [(tconn, .IncomingConnection from_id)])
      | none =>
        ({ st with pending := pqueue target from_id st.pending },
          registeredAs,
          [(connId, .Error ("Peer is offline, request queued".data))])
  | .Accept from_peer =>
    match registeredAs with
    | none => (st, registeredAs, [])
    | some acceptor =>
      (st, registeredAs,
        (match plookup from_peer st.peers with
          | some rconn => [(rconn, .Connected acceptor)]
          | none => []) ++ [(connId, .Connected from_peer)])
  | .Reject from_peer reason =>
    match registeredAs with
    | none => (st, registeredAs, [])
    | some _ =>
      match plookup from_peer st.peers with
      | some rconn =>
        (st, registeredAs,
          [(rconn, .Error ("Connection rejected: ".data ++ reason))])
      | none => (st, registeredAs, [])
  | .IceCandidate target cand =>
    match registeredAs with
    | none => (st, registeredAs, [])
    | some from_id =>
      match plookup target st.peers with
      | some tconn => (st, registeredAs, [(tconn, .IceCandidate from_id cand)])
      | none => (st, registeredAs, [])
  | .Ping => (st, registeredAs, [(connId, .Pong)])
  | _ => (st, registeredAs, [])

/-- A second concrete peer id, distinct from `peerZero`. -/
def peerOne : PeerId :=
  ⟨⟨List.replicate 32 1, by simp⟩⟩

/-- A broker state with `peerZero` on channel 0 and `peerOne` on
channel 1. -/
def twoPeerState : BrokerState :=
  { peers := [(peerZero, 0), (peerOne, 1)], pending := [] }

/-- Counterexample to C4 as stated: the broker replies to the acceptor
with `Connected{peer_id = originator}`, not with the acceptor's own id.
With `peerOne` (channel 1) accepting `peerZero` (channel 0), channel 1
receives `Connected peerZero`. -/
theorem C4_counterexample :
    ¬ (∀ (st : BrokerState) (connId : Nat) (acceptor orig : PeerId)
        (oconn : Nat),
        plookup acceptor st.peers = some connId →
        plookup orig st.peers = some oconn →
        handleMessage st connId (some acceptor) (.Accept orig) =
          (st, some acceptor,
            [(oconn, .Connected acceptor), (connId, .Connected acceptor)])) := by
  intro hall
  have h := hall twoPeerState 1 peerOne peerZero 0 (by decide) (by decide)
  exact absurd h (by decide)

/-- C4 (amended): when a registered acceptor sends `Accept{orig}` and
the originator is registered, the broker sends
`Connected{peer_id = acceptor}` to the originator's channel and
`Connected{peer_id = originator}` to the acceptor's own channel; the
state is unchanged. -/
theorem C4_accept_routing (st : BrokerState) (connId : Nat)
    (acceptor orig : PeerId) (oconn : Nat)
    (_hreg : plookup acceptor st.peers = some connId)
    (horig : plookup orig st.peers = some oconn) :
    handleMessage st connId (some acceptor) (.Accept orig) =
      (st, some acceptor,
        [(oconn, .Connected acceptor), (connId, .Connected orig)]) := by
  rw [handleMessage]
  rw [horig]
  rfl

/-- Witness for C4 at `twoPeerState`. -/
theorem C4_accept_routing_witness :
    (plookup peerOne twoPeerState.peers = some 1 ∧
      plookup peerZero twoPeerState.peers = some 0) ∧
    handleMessage twoPeerState 1 (some peerOne) (.Accept peerZero) =
      (twoPeerState, some peerOne,
        [(0, .Connected peerOne), (1, .Connected peerZero)]) :=
  ⟨⟨by decide, by decide⟩,
    C4_accept_routing twoPeerState 1 peerOne peerZero 0
      (by decide) (by decide)⟩

/-- C6: a registered sender's `IceCandidate{target, candidate}` is
forwarded to a registered target with the candidate unchanged and
`target_peer_id` rewritten to the sender's id; an unregistered target
means nothing is sent to anyone.  The state is unchanged either way. -/
theorem C6_ice_candidate_forwarding :
    (∀ (st : BrokerState) (connId : Nat) (sender target : PeerId)
        (cand : IceCandidate) (tconn : Nat),
      plookup target st.peers = some tconn →
      handleMessage st connId (some sender) (.IceCandidate target cand) =
        (st, some sender, [(tconn, .IceCandidate sender cand)])) ∧
    (∀ (st : BrokerState) (connId : Nat) (sender target : PeerId)
        (cand : IceCandidate),
      plookup target st.peers = none →
      handleMessage st connId (some sender) (.IceCandidate target cand) =
        (st, some sender, [])) := by
  constructor
  · intro st connId sender target cand tconn hlk
    rw [handleMessage, hlk]
  · intro st connId sender target cand hlk
    rw [handleMessage, hlk]

/-- A concrete candidate for the C6 witness. -/
def candA : IceCandidate :=
  { candidate_type := .Host, address := "192.168.1.7".data, port := 4433,
    priority := 1 }

/-- Witness for C6: forwarding from `peerOne` to registered `peerZero`,
and a drop when the target is not registered. -/
theorem C6_ice_candidate_forwarding_witness :
    (plookup peerZero twoPeerState.peers = some 0 ∧
      handleMessage twoPeerState 1 (some peerOne)
          (.IceCandidate peerZero candA) =
        (twoPeerState, some peerOne, [(0, .IceCandidate peerOne candA)])) ∧
    (plookup peerZero (BrokerState.mk [] []).peers = none ∧
      handleMessage (BrokerState.mk [] []) 1 (some peerOne)
          (.IceCandidate peerZero candA) =
        (BrokerState.mk [] [], some peerOne, [])) :=
  ⟨⟨by decide,
      C6_ice_candidate_forwarding.1 twoPeerState 1 peerOne peerZero candA 0
        (by decide)⟩,
    ⟨by decide,
      C6_ice_candidate_forwarding.2 (BrokerState.mk [] []) 1 peerOne peerZero
        candA (by decide)⟩⟩

/-! ## Session connect sequence
(apps/desktop-client/src-tauri/src/session.rs, `Session::connect`).

The asynchronous environment (signaling connect result, the stream of
received signaling events, transport bind/connect/accept results,
channel-send results, address parsing) is an oracle the model consumes;
`none` means the supplied trace ended before the code reached a
decision (the real code would still be blocked in a `recv`). -/

/-- `SessionRole` in shared-protocol/src/session.rs. -/
inductive SessionRole
  | Host
  | Viewer
deriving DecidableEq

/-- `SessionState` in shared-protocol/src/session.rs. -/
inductive SessionState
  | Disconnected
  | Connecting
  | WaitingForPeer
  | NatTraversal
  | Handshaking
  | Active
  | Paused
  | Ended
  | Failed
deriving DecidableEq

/-- `SessionError` in apps/desktop-client/src-tauri/src/session.rs. -/
inductive SessionError
  | Connection (msg : List Char)
  | Capture (msg : List Char)
  | Encoding (msg : List Char)
  | Transport (msg : List Char)
  | NotActive
  | ChannelError
deriving DecidableEq

deriving instance DecidableEq for Except

/-- One observation of `signal_rx.recv()` under the 5/120-second
timeout: a message, an `Ok(None)` (channel closed), or `Err(_)`
(timeout elapsed). -/
inductive RecvEvent
  | msg (m : SignalingMessage)
  | closed
  | timeout
deriving DecidableEq

/-- One iteration of the Host's incoming-connection wait: an
`IncomingConnection` together with the application's approval decision
(`false` also covers the 120 s approval timeout) and the result of the
subsequent `Accept`/`Reject` channel send; or one of the other arms. -/
inductive HostWaitEvent
  | incoming (from_peer : PeerId) (approved : Bool) (sendOk : Bool)
  | errorMsg (msg : List Char)
  | closed
  | timeout
  | other (m : SignalingMessage)
deriving DecidableEq

/-- Oracle for the Host branch of `connect`. -/
structure HostEnv where
  bindResult : Except (List Char) Unit
  waitEvents : List HostWaitEvent
  candSendOk : Bool
  acceptResult : Except (List Char) Unit

/-- Oracle for the Viewer branch of `connect`.  `parseOk` is the
outcome of parsing the matching candidate's `address:port`. -/
structure ViewerEnv where
  bindResult : Except (List Char) Unit
  connectSendOk : Bool
  waitEvents : List RecvEvent
  parseOk : Bool
  connectResult : Except (List Char) Unit

/-- Oracle for one run of `Session::connect`. -/
structure ConnectEnv where
  sigConnect : Except (List Char) Unit
  regEvents : List RecvEvent
  host : HostEnv
  viewer : ViewerEnv

/-- Rust `str::contains` for a literal pattern. -/
def containsSub (needle : List Char) : List Char → Bool
  | [] => needle.isEmpty
  | c :: t => needle.isPrefixOf (c :: t) || containsSub needle t

/-- The registration wait loop of `connect` (5-second timeout per
iteration). -/
def regLoop (ourId : PeerId) : List RecvEvent → Option (Except SessionError Unit)
  | [] => none
  | e :: es =>
    match e with
    | .msg (.Registered pid) =>
      if pid = ourId then some (.ok ()) else regLoop ourId es
    | .msg (.Error m) =>
      some (.error (.Connection ("Signaling error: ".data ++ m)))
    | .closed => some (.error (.Connection ("Signaling closed".data)))
    | .timeout => some (.error (.Connection ("Registration timeout".data)))
    | .msg _ => regLoop ourId es

/-- The Host's wait-for-connection-request loop: approval sends
`Accept` and breaks; rejection sends `Reject` and keeps waiting; a
failed channel send is a `ChannelError`; `Error` messages are logged
and ignored; recv timeouts keep waiting; closure is fatal. -/
def hostWaitLoop : List HostWaitEvent → Option (Except SessionError PeerId)
  | [] => none
  | e :: es =>
    match e with
    | .incoming f approved sendOk =>
      if approved then
        if sendOk then some (.ok f) else some (.error .ChannelError)
      else
        if sendOk then hostWaitLoop es else some (.error .ChannelError)
    | .errorMsg _ => hostWaitLoop es
    | .closed => some (.error (.Connection ("Signaling closed".data)))
    | .timeout => hostWaitLoop es
    | .other _ => hostWaitLoop es

/-- The Viewer's wait-for-candidate loop (120-second timeout): only a
candidate whose `target_peer_id` equals the remote peer breaks;
`Error` messages containing "queued" are tolerated; others are fatal. -/
def viewerWaitLoop (remoteId : PeerId) (parseOk : Bool) :
    List RecvEvent → Option (Except SessionError Unit)
  | [] => none
  | e :: es =>
    match e with
    | .msg (.IceCandidate target _) =>
      if target = remoteId then
        if parseOk then some (.ok ())
        else some (.error (.Connection ("Invalid remote address".data)))
      else viewerWaitLoop remoteId parseOk es
    | .msg (.Error m) =>
      if containsSub ("queued".data) m then viewerWaitLoop remoteId parseOk es
      else some (.error (.Connection ("Remote error: ".data ++ m)))
    | .closed => some (.error (.Connection ("Signaling closed".data)))
    | .timeout => some (.error (.Connection ("Candidate timeout".data)))
    | .msg _ => viewerWaitLoop remoteId parseOk es

/-- `Session::connect`: returns the result together with the final
value of the session's `state` field.  The state is written
`Connecting` on entry and `Active` just before returning the
`ActiveSession`; no other assignment exists in `connect`. -/
def connectModel (role : SessionRole) (ourId remoteId : PeerId)
    (env : ConnectEnv) : Option (Except SessionError Unit × SessionState) :=
  match env.sigConnect with
  | .error e =>
    some (.error (.Connection ("Signaling failed: ".data ++ e)), .Connecting)
  | .ok () =>
    match regLoop ourId env.regEvents with
    | none => none
    | some (.error err) => some (.error err, .Connecting)
    | some (.ok ()) =>
      match role with
      | .Host =>
        match env.host.bindResult with
        | .error e => some (.error (.Transport e), .Connecting)
        | .ok () =>
          match hostWaitLoop env.host.waitEvents with
          | none => none
          | some (.error err) => some (.error err, .Connecting)
          | some (.ok _viewer_peer) =>
            if env.host.candSendOk then
              match env.host.acceptResult with
              | .error e => some (.error (.Connection e), .Connecting)
              | .ok () => some (.ok (), .Active)
            else some (.error .ChannelError, .Connecting)
      | .Viewer =>
        match env.viewer.bindResult with
        | .error e => some (.error (.Transport e), .Connecting)
        | .ok () =>
          if env.viewer.connectSendOk then
            match viewerWaitLoop remoteId env.viewer.parseOk
                env.viewer.waitEvents with
            | none => none
            | some (.error err) => some (.error err, .Connecting)
            | some (.ok ()) =>
              match env.viewer.connectResult with
              | .error e => some (.error (.Connection e), .Connecting)
              | .ok () => some (.ok (), .Active)
          else some (.error .ChannelError, .Connecting)

/-- An environment whose registration wait times out. -/
def envRegTimeout : ConnectEnv :=
  { sigConnect := .ok (),
    regEvents := [.timeout],
    host := { bindResult := .ok (), waitEvents := [], candSendOk := true,
              acceptResult := .ok () },
    viewer := { bindResult := .ok (), connectSendOk := true, waitEvents := [],
                parseOk := true, connectResult := .ok () } }

/-- Counterexample to C5 as stated: on a registration timeout `connect`
returns the error but the session state remains `Connecting` (the code
never assigns `SessionState::Failed` anywhere). -/
theorem C5_counterexample :
    ¬ (∀ (role : SessionRole) (ourId remoteId : PeerId) (env : ConnectEnv)
        (err : SessionError) (st : SessionState),
        connectModel role ourId remoteId env = some (.error err, st) →
        st = SessionState.Failed) := by
  intro hall
  have h := hall .Viewer peerZero peerOne envRegTimeout
    (.Connection ("Registration timeout".data)) .Connecting (by decide)
  exact absurd h (by decide)

/-- C5 (amended): for every error observed during the connect sequence
(registration timeout, signaling `Error` reply, signaling closure,
transport bind/connect/accept failure, candidate timeout, channel
error), `Session::connect` returns that error and the session state
remains `Connecting`; `Failed` is never assigned. -/
theorem C5_connect_error_state (role : SessionRole) (ourId remoteId : PeerId)
    (env : ConnectEnv) (err : SessionError) (st : SessionState)
    (h : connectModel role ourId remoteId env = some (.error err, st)) :
    st = SessionState.Connecting := by
  rw [connectModel.eq_def] at h
  repeat' split at h
  all_goals simp_all

/-- Witness for C5 at the registration-timeout environment. -/
theorem C5_connect_error_state_witness :
    connectModel .Viewer peerZero peerOne envRegTimeout =
      some (.error (.Connection ("Registration timeout".data)),
        SessionState.Connecting) ∧
    SessionState.Connecting = SessionState.Connecting :=
  ⟨by decide,
    C5_connect_error_state .Viewer peerZero peerOne envRegTimeout
      (.Connection ("Registration timeout".data)) .Connecting (by decide)⟩

end Entagle
